import Mathlib

/-!
Verification of the change-detection and tree-building core of `prdiff`.

The Rust sources are shallowly embedded: Rust `String`s become `List Char`
(so byte-wise Rust string comparison coincides with the character-wise
lexicographic order used here, UTF-8 being order-preserving), `i32`
counters become `Int`, fallible subprocess/filesystem reads become
`Option`/`Except` parameters, and in-place mutation becomes explicit
state passing.
-/

namespace Prdiff

/-- Rust strings, modelled as lists of characters. -/
abbrev Str := List Char

/-- `a ≤ b` in the lexicographic order; models Rust `a.cmp(b) != Ordering::Greater`
for `str` (byte-wise comparison agrees with code-point comparison on UTF-8). -/
def strLe : Str → Str → Bool
  | [], _ => true
  | _ :: _, [] => false
  | a :: as, b :: bs => if a = b then strLe as bs else decide (a < b)

/-- Models Rust `str::split(sep)`: splits at every occurrence of `sep`,
keeping empty substrings, always returning at least one piece. -/
def splitChar (sep : Char) : Str → List Str
  | [] => [[]]
  | c :: cs =>
    if c = sep then [] :: splitChar sep cs
    else
      match splitChar sep cs with
      | s :: ss => (c :: s) :: ss
      | [] => [[c]]

/-- Models `path.rsplit('/').next().unwrap_or(path)`: the last `/`-separated
segment (the default is never reached since a split is never empty). -/
def lastSeg (s : Str) : Str := (splitChar '/' s).getLastD s

/-- Models `if prefix.is_empty() { name } else { format!("{prefix}/{name}") }`,
the path-building convention shared by `expand_all_dirs` and `collect_visible`. -/
def joinPath (pre n : Str) : Str := if pre = [] then n else pre ++ '/' :: n

/-- Models `model::FileStatus`. -/
inductive FileStatus where
  | added | modified | deleted | renamed | unknown
deriving DecidableEq, Repr

/-- Models `model::FileEntry`. -/
structure FileEntry where
  path : Str
  status : FileStatus
  additions : Int
  deletions : Int
deriving DecidableEq, Repr

/-- Models `model::TreeNode`. -/
inductive TreeNode where
  | dir : Str → List TreeNode → TreeNode
  | file : FileEntry → TreeNode
deriving Repr

/-- Models `TreeNode::name()`. -/
def TreeNode.name : TreeNode → Str
  | .dir n _ => n
  | .file f => lastSeg f.path

/-- Models `matches!(n, TreeNode::Directory { .. })`. -/
def TreeNode.isDir : TreeNode → Bool
  | .dir _ _ => true
  | .file _ => false

mutual
/-- Models `insert_into_tree` from `tree.rs`.  An empty `parts` list is
unreachable from `build_tree` (a split is never empty) and returns the
nodes unchanged. -/
def insertIntoTree (nodes : List TreeNode) (parts : List Str) (f : FileEntry) :
    List TreeNode :=
  match parts with
  | [] => nodes
  | [_] => nodes ++ [.file f]
  | p :: rest => insertIntoDir nodes p rest f
termination_by (parts.length, nodes.length + 1)

/-- The find-existing-directory-or-push-new part of `insert_into_tree`
(`iter_mut().find(...)` followed by the `match existing`). -/
def insertIntoDir (nodes : List TreeNode) (p : Str) (rest : List Str)
    (f : FileEntry) : List TreeNode :=
  match nodes with
  | [] => [.dir p (insertIntoTree [] rest f)]
  | .dir name children :: ns =>
      if name = p then .dir name (insertIntoTree children rest f) :: ns
      else .dir name children :: insertIntoDir ns p rest f
  | n :: ns => n :: insertIntoDir ns p rest f
termination_by (rest.length + 1, nodes.length)
end

/-- Models the comparator closure in `sort_tree`: directories sort before
files; within a kind, by `name()`. -/
def nodeLe (a b : TreeNode) : Bool :=
  match a.isDir, b.isDir with
  | true, false => true
  | false, true => false
  | _, _ => strLe a.name b.name

mutual
/-- Models `sort_tree`: each level is sorted with `nodeLe` (Rust's stable
`sort_by` is merge sort) and children are sorted recursively.  The Rust code
sorts a level before recursing into its children; since the comparator reads
only each node's own name and kind, which recursion into children preserves,
recursing first is equivalent. -/
def sortTree (nodes : List TreeNode) : List TreeNode :=
  (sortEach nodes).mergeSort nodeLe
termination_by (sizeOf nodes, 1)

def sortEach : List TreeNode → List TreeNode
  | [] => []
  | n :: ns => sortNode n :: sortEach ns
termination_by ns => (sizeOf ns, 0)

def sortNode : TreeNode → TreeNode
  | .file f => .file f
  | .dir n cs => .dir n (sortTree cs)
termination_by n => (sizeOf n, 0)
end

/-- Models the merge `loop` inside `compact_tree`: while the node has exactly
one child which is a directory with exactly one child, fuse the names and
adopt the grandchildren. -/
def mergeLoop (name : Str) (children : List TreeNode) : TreeNode :=
  match children with
  | [.dir childName gc] =>
      if gc.length = 1 then mergeLoop (name ++ '/' :: childName) gc
      else .dir name children
  | _ => .dir name children
termination_by sizeOf children

mutual
/-- Models `compact_tree` acting on one node: children are compacted first,
then the merge loop runs. -/
def compactNode : TreeNode → TreeNode
  | .file f => .file f
  | .dir name children => mergeLoop name (compactList children)

/-- Models `compact_tree` over a slice of nodes. -/
def compactList : List TreeNode → List TreeNode
  | [] => []
  | n :: ns => compactNode n :: compactList ns
end

/-- Models `build_tree`. -/
def buildTree (files : List FileEntry) : List TreeNode :=
  let root := files.foldl (fun acc f => insertIntoTree acc (splitChar '/' f.path) f) []
  compactList (sortTree root)

/-- Models `expand_all_dirs`; the returned list stands for the set of paths
inserted into the `HashSet`. -/
def expandAllDirs : List TreeNode → Str → List Str
  | [], _ => []
  | .file _ :: ns, pre => expandAllDirs ns pre
  | .dir n cs :: ns, pre =>
      joinPath pre n ::
        (expandAllDirs cs (joinPath pre n) ++ expandAllDirs ns pre)

/-- Models `collect_visible`: pre-order flattening that recurses into a
directory only when its path is in the expansion set. -/
def collectVisible : List TreeNode → Str → Nat → List Str →
    List (Nat × Str × TreeNode)
  | [], _, _, _ => []
  | .file f :: ns, pre, depth, expanded =>
      (depth, f.path, .file f) :: collectVisible ns pre depth expanded
  | .dir n cs :: ns, pre, depth, expanded =>
      (depth, joinPath pre n, .dir n cs) ::
        ((if expanded.contains (joinPath pre n) then
            collectVisible cs (joinPath pre n) (depth + 1) expanded
          else []) ++
          collectVisible ns pre depth expanded)

/-! ## git.rs: binary detection, size formatting, path normalization -/

/-- File contents, modelled as lists of byte values. -/
abbrev Bytes := List Nat

/-- Models `is_binary`: a NUL byte in the first 8 KB. -/
def isBinary (bytes : Bytes) : Bool := (bytes.take 8192).contains 0

/-- Decimal rendering of a natural number; models Rust `format!("{n}")`. -/
def natDec (n : Nat) : Str := Nat.toDigits 10 n

/-- Round `num / den` to the nearest integer, ties to even.  Models Rust's
`{:.1}` formatting of `bytes as f64 / unit` after scaling by 10: the division
is by a power of two, hence exact in `f64`, and Rust's float formatting is
correctly rounded with ties to even. -/
def roundHalfEven (num den : Nat) : Nat :=
  let q := num / den
  let r := num % den
  if den < 2 * r ∨ (2 * r = den ∧ q % 2 = 1) then q + 1 else q

/-- One-decimal rendering of `bytes / unit`; models `format!("{:.1}", ...)`. -/
def oneDecimal (bytes unit : Nat) : Str :=
  let t := roundHalfEven (10 * bytes) unit
  natDec (t / 10) ++ '.' :: natDec (t % 10)

/-- Models `format_size`. -/
def formatSize (bytes : Nat) : Str :=
  if bytes < 1024 then natDec bytes ++ " bytes".toList
  else if bytes < 1024 * 1024 then oneDecimal bytes 1024 ++ " KB".toList
  else oneDecimal bytes (1024 * 1024) ++ " MB".toList

/-- The characters `{` and `}` (written via code points). -/
def obrace : Char := Char.ofNat 123

def cbrace : Char := Char.ofNat 125

/-- Models `str::find(c)`: index of the first occurrence. -/
def findIdxOfChar (c : Char) (s : Str) : Option Nat := s.findIdx? (· = c)

/-- Models `str::rfind(c)`: index of the last occurrence. -/
def rfindIdxOfChar (c : Char) (s : Str) : Option Nat :=
  match (s.reverse).findIdx? (· = c) with
  | some i => some (s.length - 1 - i)
  | none => none

/-- Models `str::split_once(sep)`: split at the first occurrence of `sep`. -/
def splitOnceAt (sep : Str) : Str → Option (Str × Str)
  | [] => if sep.isPrefixOf ([] : Str) then some ([], []) else none
  | c :: cs =>
    if sep.isPrefixOf (c :: cs) then some ([], (c :: cs).drop sep.length)
    else
      match splitOnceAt sep cs with
      | some (a, b) => some (c :: a, b)
      | none => none

/-- Models `normalize_numstat_path` from `git.rs` (indices are character
positions; Rust's byte positions delimit the same slices since `find`/`rfind`
return character-boundary offsets). -/
def normalizeNumstatPath (field : Str) : Str :=
  let fallback :=
    match splitOnceAt " => ".toList field with
    | some (_, nw) => nw
    | none => field
  match findIdxOfChar obrace field, rfindIdxOfChar cbrace field with
  | some op, some cl =>
    if op < cl then
      let pre := field.take op
      let suf := field.drop (cl + 1)
      let inner := (field.take cl).drop (op + 1)
      match splitOnceAt " => ".toList inner with
      | some (_, nw) => pre ++ nw ++ suf
      | none => fallback
    else fallback
  | _, _ => fallback

/-! ## git.rs: the `git diff -z --raw --numstat` parser -/

/-- Association-list model of `HashMap`: later inserts shadow earlier ones. -/
def insertA {β : Type} (m : List (Str × β)) (k : Str) (v : β) : List (Str × β) :=
  (k, v) :: m

/-- Models `HashMap::get`. -/
def lookupA {β : Type} (m : List (Str × β)) (k : Str) : Option β :=
  (m.find? (fun kv => kv.1 == k)).map (·.2)

/-- Split at every character satisfying `p`, keeping empty pieces (the same
shape as `splitChar`, with a predicate). -/
def splitPred (p : Char → Bool) : Str → List Str
  | [] => [[]]
  | c :: cs =>
    if p c then [] :: splitPred p cs
    else
      match splitPred p cs with
      | s :: ss => (c :: s) :: ss
      | [] => [[c]]

/-- Models `str::split_whitespace`: maximal non-whitespace tokens, i.e. the
non-empty pieces obtained by splitting at every whitespace character. -/
def splitWs (s : Str) : List Str :=
  (splitPred Char.isWhitespace s).filter (fun t => t ≠ [])

/-- Models `str::parse::<i32>().unwrap_or(0)`: optional sign, all digits,
within `i32` range; otherwise 0. -/
def parseI32Or0 (s : Str) : Int :=
  let digitsVal : Str → Nat := fun ds =>
    ds.foldl (fun acc c => 10 * acc + (c.toNat - '0'.toNat)) 0
  match s with
  | [] => 0
  | '-' :: ds =>
    if ds ≠ [] ∧ ds.all Char.isDigit ∧ digitsVal ds ≤ 2147483648 then
      -(digitsVal ds : Int)
    else 0
  | '+' :: ds =>
    if ds ≠ [] ∧ ds.all Char.isDigit ∧ digitsVal ds ≤ 2147483647 then
      (digitsVal ds : Int)
    else 0
  | _ =>
    if s.all Char.isDigit ∧ digitsVal s ≤ 2147483647 then (digitsVal s : Int)
    else 0

/-- The mutable maps of `git_diff_status_and_stats`. -/
structure ParseState where
  statusMap : List (Str × FileStatus)
  statsMap : List (Str × (Int × Int))
  pathsOrdered : List Str

/-- The status character of a `--raw` record: first character of the last
whitespace-separated field (`split_whitespace().last().unwrap_or("?")` then
`chars().next().unwrap_or('?')`). -/
def rawStatusChar (part : Str) : Char := ((splitWs part).getLastD ['?']).headD '?'

/-- The status assigned to a rename/copy raw record
(`if status_char == 'R' { Renamed } else { Added }`). -/
def rcStatus (c : Char) : FileStatus := if c = 'R' then .renamed else .added

/-- The status-letter classification for non-rename raw records. -/
def rawStatus (c : Char) : FileStatus :=
  match c with
  | 'A' => .added
  | 'M' => .modified
  | 'T' => .modified
  | 'D' => .deleted
  | _ => .unknown

/-- State update for a rename/copy raw record: push the new path into
`paths_ordered` if fresh and non-empty, and insert its status
unconditionally. -/
def registerRC (c : Char) (nw : Str) (st : ParseState) : ParseState :=
  let st' :=
    if nw ≠ [] ∧ lookupA st.statusMap nw = none then
      { st with pathsOrdered := st.pathsOrdered ++ [nw] }
    else st
  { st' with statusMap := insertA st'.statusMap nw (rcStatus c) }

/-- State update for a plain raw record: ignore an empty path, otherwise push
it if fresh and record its status. -/
def registerStatus (c : Char) (path : Str) (st : ParseState) : ParseState :=
  if path ≠ [] then
    let st' :=
      if lookupA st.statusMap path = none then
        { st with pathsOrdered := st.pathsOrdered ++ [path] }
      else st
    { st' with statusMap := insertA st'.statusMap path (rawStatus c) }
  else st

/-- State update for a rename/copy numstat record: attribute the counts to
the (non-empty) new path. -/
def registerRenameStats (fields : List Str) (nw : Str) (st : ParseState) :
    ParseState :=
  if nw ≠ [] then
    { st with
        statsMap := insertA st.statsMap nw
          (parseI32Or0 (fields.getD 0 []), parseI32Or0 (fields.getD 1 [])) }
  else st

/-- State update for a plain numstat record: attribute the counts to the
normalized path field. -/
def registerStats (fields : List Str) (st : ParseState) : ParseState :=
  { st with
      statsMap := insertA st.statsMap (normalizeNumstatPath (fields.getD 2 []))
        (parseI32Or0 (fields.getD 0 []), parseI32Or0 (fields.getD 1 [])) }

/-- Models the `while i < parts.len()` loop of `git_diff_status_and_stats`,
walking the NUL-delimited parts. -/
def diffParseLoop : List Str → ParseState → ParseState
  | [], st => st
  | part :: rest, st =>
    if part.head? = some ':' then
      if rawStatusChar part = 'R' ∨ rawStatusChar part = 'C' then
        match rest with
        | _old :: nw :: rest' => diffParseLoop rest' (registerRC (rawStatusChar part) nw st)
        | _ =>
          -- fewer than two parts remain: the missing path reads as "" and the
          -- loop runs off the end after the unconditional status_map.insert
          { st with statusMap := insertA st.statusMap [] (rcStatus (rawStatusChar part)) }
      else
        match rest with
        | path :: rest' => diffParseLoop rest' (registerStatus (rawStatusChar part) path st)
        | [] => st
    else if part ≠ [] ∧ ((part.headD ' ').isDigit ∨ part.head? = some '-') then
      let fields := splitChar '\t' part
      if 3 ≤ fields.length then
        if fields.getD 2 [] = [] then
          match rest with
          | _old :: nw :: rest' => diffParseLoop rest' (registerRenameStats fields nw st)
          | _ => st
        else diffParseLoop rest (registerStats fields st)
      else diffParseLoop rest st
    else diffParseLoop rest st

/-- Models the entry-building loop at the end of `git_diff_status_and_stats`. -/
def buildEntries (st : ParseState) : List FileEntry :=
  st.pathsOrdered.map fun path =>
    let status := (lookupA st.statusMap path).getD .unknown
    let stats := (lookupA st.statsMap path).getD (0, 0)
    { path := path, status := status, additions := stats.1, deletions := stats.2 }

/-- Models `git_diff_status_and_stats`, taking the NUL-split stdout parts of
the underlying `git diff -z --raw --numstat` invocation as input. -/
def gitDiffStatusAndStats (parts : List Str) : List FileEntry :=
  buildEntries (diffParseLoop parts ⟨[], [], []⟩)

/-! ## git.rs: get_changed_files -/

/-- Models `untracked` post-processing in `get_changed_files`: the closure on
the result of `std::fs::read` counting lines, 0 for empty or binary files. -/
def untrackedLineCount (bytes : Bytes) : Int :=
  if bytes = [] ∨ isBinary bytes then 0
  else
    let newlines : Int := bytes.countP (· == 10)
    if bytes.getLast? = some 10 then newlines else newlines + 1

/-- The index-only loop of `get_changed_files`: append entries whose path is
not yet seen, extending the seen set. -/
def addIndexFiles : List FileEntry → List FileEntry → List Str →
    List FileEntry × List Str
  | [], files, seen => (files, seen)
  | e :: es, files, seen =>
    if seen.contains e.path then addIndexFiles es files seen
    else addIndexFiles es (files ++ [e]) (e.path :: seen)

/-- The entry built for one untracked path: status Added, additions from the
line count of the on-disk bytes (`unwrap_or(0)` on read failure), zero
deletions. -/
def untrackedEntry (fsRead : Str → Option Bytes) (p : Str) : FileEntry :=
  let lineCount :=
    match fsRead p with
    | some bytes => untrackedLineCount bytes
    | none => 0
  ⟨p, .added, lineCount, 0⟩

/-- The untracked-files loop of `get_changed_files`: skip empty or seen
paths, otherwise append the entry for the path. -/
def addUntracked (fsRead : Str → Option Bytes) : List Str → List Str →
    List FileEntry
  | [], _ => []
  | p :: ps, seen =>
    if p = [] ∨ seen.contains p then addUntracked fsRead ps seen
    else untrackedEntry fsRead p :: addUntracked fsRead ps seen

/-- Models `get_changed_files`.  The two `git_diff_status_and_stats` results,
the `git ls-files` untracked listing, and the filesystem are parameters; a
failed diff query fails the whole call (the `?` operator). -/
def getChangedFiles (workFiles indexFiles : Except Unit (List FileEntry))
    (untracked : List Str) (fsRead : Str → Option Bytes) :
    Except Unit (List FileEntry) :=
  match workFiles with
  | .error e => .error e
  | .ok work =>
    match indexFiles with
    | .error e => .error e
    | .ok index =>
      let seen0 := work.map (·.path)
      let r := addIndexFiles index work seen0
      .ok (r.1 ++ addUntracked fsRead untracked r.2)

/-! ## git.rs: get_file_diff -/

/-- Models `model::DiffSource`. -/
inductive DiffSource where
  | worktree | index | untracked
deriving DecidableEq, Repr

/-- Models Rust `str::lines()`: split on `'\n'`, dropping a final empty piece
and stripping one trailing `'\r'` from each line. -/
def rustLines (s : Str) : List Str :=
  if s = [] then []
  else
    let pieces := splitChar '\n' s
    let pieces := if s.getLast? = some '\n' then pieces.dropLast else pieces
    pieces.map fun l => if l.getLast? = some '\r' then l.dropLast else l

/-- The Unicode replacement character. -/
def replChar : Char := Char.ofNat 0xFFFD

/-- Is `b` a UTF-8 continuation byte? -/
def isCont (b : Nat) : Bool := 0x80 ≤ b && b ≤ 0xBF

/-- One decoding step for `from_utf8_lossy`: given the lead byte and the
rest, produce the decoded character (U+FFFD on malformed input) and the
remaining bytes. -/
def utf8Step (b : Nat) (bs : Bytes) : Char × Bytes :=
  if b < 0x80 then (Char.ofNat b, bs)
  else if 0xC2 ≤ b && b ≤ 0xDF then
    match bs with
    | b2 :: bs' =>
      if isCont b2 then (Char.ofNat ((b - 0xC0) * 64 + (b2 - 0x80)), bs')
      else (replChar, bs)
    | [] => (replChar, [])
  else if 0xE0 ≤ b && b ≤ 0xEF then
    match bs with
    | b2 :: b3 :: bs' =>
      if isCont b2 && isCont b3 &&
          (b ≠ 0xE0 || 0xA0 ≤ b2) && (b ≠ 0xED || b2 ≤ 0x9F) then
        (Char.ofNat ((b - 0xE0) * 4096 + (b2 - 0x80) * 64 + (b3 - 0x80)), bs')
      else (replChar, bs)
    | _ => (replChar, bs)
  else if 0xF0 ≤ b && b ≤ 0xF4 then
    match bs with
    | b2 :: b3 :: b4 :: bs' =>
      if isCont b2 && isCont b3 && isCont b4 &&
          (b ≠ 0xF0 || 0x90 ≤ b2) && (b ≠ 0xF4 || b2 ≤ 0x8F) then
        (Char.ofNat
          ((b - 0xF0) * 262144 + (b2 - 0x80) * 4096 + (b3 - 0x80) * 64 + (b4 - 0x80)),
         bs')
      else (replChar, bs)
    | _ => (replChar, bs)
  else (replChar, bs)

/-- Models `String::from_utf8_lossy`: valid sequences decode to their code
point, invalid bytes become U+FFFD.  (On malformed multi-byte runs the exact
number of replacement characters may differ from Rust's maximal-subpart
policy; no claim depends on decoded content.) -/
def utf8Lossy : Bytes → Str
  | [] => []
  | b :: bs => (utf8Step b bs).1 :: utf8Lossy (utf8Step b bs).2
termination_by bs => bs.length
decreasing_by
  have h : (utf8Step b bs).2.length ≤ bs.length := by
    unfold utf8Step
    repeat' split
    all_goals simp_all
    all_goals omega
  simp
  omega

/-- The non-empty-lines check applied to each diff attempt in `get_file_diff`
(`if let Ok(o) = ... { let lines = ...; if !lines.is_empty() { return ... } }`). -/
def firstNonEmptyLines (out : Option Str) : Option (List Str) :=
  match out with
  | some o =>
    let ls := rustLines o
    if ls ≠ [] then some ls else none
  | none => none

/-- The untracked-file fallback of `get_file_diff`: synthesize a new-file
diff from the on-disk bytes, or report the error line. -/
def getFileDiffFallback (path : Str) (fileBytes : Option Bytes) :
    DiffSource × List Str :=
  match fileBytes with
  | some bytes =>
    let hdr : List Str :=
      ["diff --git a/".toList ++ path ++ " b/".toList ++ path,
       "new file mode 100644".toList,
       "--- /dev/null".toList,
       "+++ b/".toList ++ path]
    if bytes = [] then (.untracked, hdr ++ ["@@ -0,0 +0,0 @@".toList])
    else if isBinary bytes then
      (.untracked,
       hdr ++ ["Binary file ".toList ++ path ++ " (".toList ++
         formatSize bytes.length ++ [')']])
    else
      let fileLines := rustLines (utf8Lossy bytes)
      (.untracked,
       hdr ++ ("@@ -0,0 +1,".toList ++ natDec fileLines.length ++ " @@".toList) ::
         fileLines.map (fun l => '+' :: l))
  | none => (.worktree, ["Error getting diff".toList])

/-- Models `get_file_diff`.  The stdout of the two `git diff` invocations
(`None` for a failed command) and the result of `std::fs::read` are
parameters. -/
def getFileDiff (path : Str) (worktreeOut indexOut : Option Str)
    (fileBytes : Option Bytes) : DiffSource × List Str :=
  match firstNonEmptyLines worktreeOut with
  | some ls => (.worktree, ls)
  | none =>
    match firstNonEmptyLines indexOut with
    | some ls => (.index, ls)
    | none => getFileDiffFallback path fileBytes

/-! ## watcher.rs: one tick of the watcher loop -/

/-- Models `WatcherMessage::FilesChanged`. -/
structure WatcherMsg where
  files : List FileEntry
  mergeBase : Str
  invalidateAll : Bool
  invalidatePaths : List Str

/-- The private comparison state of `watcher_loop`. -/
structure WatcherState where
  mergeBase : Str
  files : List FileEntry
  lastHeadOid : Str
  lastBaseOid : Str
  lastStatusHash : Nat
  lastIndexMtime : Option Nat
  lastHeadMtime : Option Nat
  lastRefsHeadsMtime : Option Nat
  lastRefsRemotesMtime : Option Nat
  lastPackedRefsMtime : Option Nat
  fileMtimes : List (Str × Nat)

/-- What one tick observes from the repository: current control-file mtimes,
rev-parse/merge-base/status results, per-file mtimes, and the collector
result. -/
structure TickObs where
  indexMtime : Option Nat
  headMtime : Option Nat
  refsHeadsMtime : Option Nat
  refsRemotesMtime : Option Nat
  packedRefsMtime : Option Nat
  headOid : Except Unit Str
  baseOid : Except Unit Str
  newMergeBase : Except Unit Str
  statusHash : Except Unit Nat
  fileMtime : Str → Option Nat
  changedFiles : Except Unit (List FileEntry)

/-- Models `get_file_mtimes`: paths that stat successfully map to mtimes. -/
def getFileMtimes (files : List FileEntry) (mt : Str → Option Nat) :
    List (Str × Nat) :=
  files.foldl
    (fun m f =>
      match mt f.path with
      | some v => insertA m f.path v
      | none => m)
    []

/-- The file-mtime / status-hash / refresh tail of the tick (everything after
the `.git` checks in `watcher_loop`). -/
def tickTail (st : WatcherState) (obs : TickObs)
    (invalidateAll needsRefresh0 gitDirChanged : Bool) :
    WatcherState × Option WatcherMsg :=
  let newMtimes := getFileMtimes st.files obs.fileMtime
  let invalidatePaths :=
    (st.files.map (·.path)).filter
      (fun p => lookupA st.fileMtimes p != lookupA newMtimes p)
  let needsRefresh1 := needsRefresh0 || !invalidatePaths.isEmpty
  let (st1, needsRefresh2) :=
    if !invalidatePaths.isEmpty || gitDirChanged then
      match obs.statusHash with
      | .ok h =>
        if h ≠ st.lastStatusHash then ({ st with lastStatusHash := h }, true)
        else (st, needsRefresh1)
      | .error _ => (st, needsRefresh1)
    else (st, needsRefresh1)
  if !needsRefresh2 then (st1, none)
  else
    match obs.changedFiles with
    | .error _ => (st1, none)
    | .ok newFiles =>
      let msg : WatcherMsg :=
        ⟨newFiles, st1.mergeBase, invalidateAll, invalidatePaths⟩
      ({ st1 with files := newFiles,
                  fileMtimes := getFileMtimes newFiles obs.fileMtime },
       some msg)

/-- Models one iteration of `watcher_loop` (after the sleep): the `.git`
mtime checks, ref re-resolution, file-mtime scan, status-hash fingerprint,
and the conditional refresh.  Returns the updated private state and the
message sent, if any (`none` also covers the `continue` cases). -/
def watcherTick (st : WatcherState) (obs : TickObs) :
    WatcherState × Option WatcherMsg :=
  let indexChanged := obs.indexMtime != st.lastIndexMtime
  let refsChanged :=
    (obs.headMtime != st.lastHeadMtime) ||
    (obs.refsHeadsMtime != st.lastRefsHeadsMtime) ||
    (obs.refsRemotesMtime != st.lastRefsRemotesMtime) ||
    (obs.packedRefsMtime != st.lastPackedRefsMtime)
  let gitDirChanged := indexChanged || refsChanged
  let st1 :=
    if gitDirChanged && indexChanged then { st with lastIndexMtime := obs.indexMtime }
    else st
  let invalidateAll1 := gitDirChanged && indexChanged
  let needsRefresh1 := gitDirChanged && indexChanged
  if gitDirChanged && refsChanged then
    let st2 :=
      { st1 with lastHeadMtime := obs.headMtime,
                 lastRefsHeadsMtime := obs.refsHeadsMtime,
                 lastRefsRemotesMtime := obs.refsRemotesMtime,
                 lastPackedRefsMtime := obs.packedRefsMtime }
    match obs.headOid with
    | .error _ => (st2, none)
    | .ok headOid =>
      match obs.baseOid with
      | .error _ => (st2, none)
      | .ok baseOid =>
        if headOid ≠ st.lastHeadOid ∨ baseOid ≠ st.lastBaseOid then
          match obs.newMergeBase with
          | .ok mb =>
            tickTail
              { st2 with mergeBase := mb, lastHeadOid := headOid,
                         lastBaseOid := baseOid }
              obs true true gitDirChanged
          | .error _ => tickTail st2 obs true needsRefresh1 gitDirChanged
        else tickTail st2 obs invalidateAll1 needsRefresh1 gitDirChanged
  else tickTail st1 obs invalidateAll1 needsRefresh1 gitDirChanged

/-! ## app.rs: expansion-state reconciliation -/

/-- Models the expansion recomputation in `App::apply_file_changes`:
`(old ∩ new-dirs) ∪ (new-dirs − old-dirs)`, with `old_dirs`/`new_dirs`
computed by `expand_all_dirs` on the old and new trees. -/
def applyExpansionRebuild (expanded : List Str) (oldTree newTree : List TreeNode) :
    List Str :=
  let oldDirs := expandAllDirs oldTree []
  let newDirs := expandAllDirs newTree []
  expanded.filter (fun p => newDirs.contains p) ++
    newDirs.filter (fun d => !oldDirs.contains d)

/-! ## Predicates and projections used to state the claims -/

/-- Boolean pairwise check: `r` holds for every ordered pair of elements. -/
def pairwiseB {α : Type} (r : α → α → Bool) : List α → Bool
  | [] => true
  | a :: as => as.all (r a) && pairwiseB r as

mutual
/-- The ordering property claimed for `build_tree` output (claim C3): at this
level all directories come before all files and each group is alphabetical
by `name()` — i.e. every ordered pair satisfies the sort comparator — and the
same holds recursively inside every directory. -/
def treeSortedB (nodes : List TreeNode) : Bool :=
  pairwiseB nodeLe nodes && childrenSortedB nodes

/-- `treeSortedB` for the children of every directory in the list. -/
def childrenSortedB : List TreeNode → Bool
  | [] => true
  | .file _ :: ns => childrenSortedB ns
  | .dir _ cs :: ns => treeSortedB cs && childrenSortedB ns
end

/-- The first `/`-separated segment of a (possibly compacted) name. -/
def firstSeg (s : Str) : Str := s.takeWhile (· ≠ '/')

/-- The amended level ordering after compaction: directories before files,
files alphabetical by name, directories alphabetical by the first segment of
their (possibly compacted) name. -/
def amendedLe (a b : TreeNode) : Bool :=
  match a.isDir, b.isDir with
  | true, false => true
  | false, true => false
  | true, true => strLe (firstSeg a.name) (firstSeg b.name)
  | false, false => strLe a.name b.name

mutual
/-- The amended ordering property (claim C3, corrected): `amendedLe` pairwise
at every level. -/
def treeAmendedB (nodes : List TreeNode) : Bool :=
  pairwiseB amendedLe nodes && childrenAmendedB nodes

/-- `treeAmendedB` for the children of every directory in the list. -/
def childrenAmendedB : List TreeNode → Bool
  | [] => true
  | .file _ :: ns => childrenAmendedB ns
  | .dir _ cs :: ns => treeAmendedB cs && childrenAmendedB ns
end

/-- `s` contains no `/`. -/
def noSlash (s : Str) : Bool := s.all (· ≠ '/')

/-- Every directory name in the forest, at every level, is slash-free (true
for trees built by insertion from split paths, before compaction). -/
def dirNamesOKB : List TreeNode → Bool
  | [] => true
  | .file _ :: ns => dirNamesOKB ns
  | .dir n cs :: ns => noSlash n && dirNamesOKB cs && dirNamesOKB ns

/-- All file entries stored in a forest, in pre-order. -/
def filesOfList : List TreeNode → List FileEntry
  | [] => []
  | .file f :: ns => f :: filesOfList ns
  | .dir _ cs :: ns => filesOfList cs ++ filesOfList ns

/-- The file entries stored in one node. -/
def nodeFiles : TreeNode → List FileEntry
  | .file f => [f]
  | .dir _ cs => filesOfList cs

/-- The path of a `collect_visible` row when it is a `File` row. -/
def fileRowPath (row : Nat × Str × TreeNode) : Option Str :=
  match row.2.2 with
  | .file f => some f.path
  | .dir _ _ => none

/-- The paths of the `File` nodes produced by `collect_visible` (claim C4):
flatten the tree respecting the expansion set and keep the file rows. -/
def visibleFilePaths (tree : List TreeNode) (expanded : List Str) : List Str :=
  (collectVisible tree [] 0 expanded).filterMap fileRowPath

/-! ## Claim C1: the a/b/{c.rs,d.rs} example tree -/

/-- C1 (counterexample): building the tree from the ChangeSet
`[{a/b/c.rs, Modified, +3,-1}, {a/b/d.rs, Added, +10,-0}]` does NOT yield
`Directory("a/b")[File(c.rs), File(d.rs)]`: `compact_tree` refuses to merge
`a` with `b` because `b` has two children. -/
theorem c1_claimed_tree_refuted :
    buildTree
        [⟨"a/b/c.rs".toList, .modified, 3, 1⟩, ⟨"a/b/d.rs".toList, .added, 10, 0⟩] ≠
      [.dir "a/b".toList
        [.file ⟨"a/b/c.rs".toList, .modified, 3, 1⟩,
         .file ⟨"a/b/d.rs".toList, .added, 10, 0⟩]] := by
  simp [buildTree, insertIntoTree, insertIntoDir, splitChar, sortTree, sortEach, sortNode,
    List.mergeSort, nodeLe, TreeNode.name, TreeNode.isDir, strLe, lastSeg, compactList,
    compactNode, mergeLoop]

/-- C1 (amended): the ChangeSet `[{a/b/c.rs, Modified, +3,-1},
{a/b/d.rs, Added, +10,-0}]` yields `Directory("a")` whose sole child is
`Directory("b")` with children `File(c.rs)` and `File(d.rs)` — `a` is not
merged with `b` because `b` has two children. -/
theorem c1_tree_amended :
    buildTree
        [⟨"a/b/c.rs".toList, .modified, 3, 1⟩, ⟨"a/b/d.rs".toList, .added, 10, 0⟩] =
      [.dir "a".toList
        [.dir "b".toList
          [.file ⟨"a/b/c.rs".toList, .modified, 3, 1⟩,
           .file ⟨"a/b/d.rs".toList, .added, 10, 0⟩]]] := by
  simp [buildTree, insertIntoTree, insertIntoDir, splitChar, sortTree, sortEach, sortNode,
    List.mergeSort, nodeLe, TreeNode.name, TreeNode.isDir, strLe, lastSeg, compactList,
    compactNode, mergeLoop]

/-! ## Claim C5: rename/copy records are attributed to the new path -/

/-- Step lemma: a raw rename/copy record consumes the two following parts
(old path, new path) and updates the state via `registerRC`. -/
theorem diffParseLoop_rawRC_step (rcd old nw : Str) (rest : List Str)
    (st : ParseState)
    (hrec : rcd.head? = some ':')
    (hrc : rawStatusChar rcd = 'R' ∨ rawStatusChar rcd = 'C') :
    diffParseLoop (rcd :: old :: nw :: rest) st =
      diffParseLoop rest (registerRC (rawStatusChar rcd) nw st) := by
  rw [diffParseLoop]
  rw [if_pos hrec, if_pos hrc]

/-- Step lemma: a numstat record with an empty third field consumes the two
following parts (old path, new path) and updates the state via
`registerRenameStats`. -/
theorem diffParseLoop_numstatRename_step (rcd old nw : Str) (rest : List Str)
    (st : ParseState)
    (h1 : rcd.head? ≠ some ':')
    (h2 : rcd ≠ [])
    (h3 : ((rcd.headD ' ').isDigit : Prop) ∨ rcd.head? = some '-')
    (hlen : 3 ≤ (splitChar '\t' rcd).length)
    (hraw : (splitChar '\t' rcd).getD 2 [] = []) :
    diffParseLoop (rcd :: old :: nw :: rest) st =
      diffParseLoop rest (registerRenameStats (splitChar '\t' rcd) nw st) := by
  rw [diffParseLoop]
  rw [if_neg h1, if_pos ⟨h2, h3⟩, if_pos hlen, if_pos hraw]

/-- C5: parsing a rename record (`R100`) or a copy record (`C085`) together
with its numstat record attributes the entry and the +5,-2 statistics to the
new path only, discarding the old path; and `normalize_numstat_path` maps
`"src/{old => new}/file.rs"` to `"src/new/file.rs"` and
`"old.txt => new.txt"` to `"new.txt"`. -/
theorem rename_copy_new_path_only (old nw : Str) (hnw : nw ≠ []) :
    gitDiffStatusAndStats
        [":100644 100644 abc1234 def5678 R100".toList, old, nw,
         "5\t2\t".toList, old, nw] =
      [⟨nw, .renamed, 5, 2⟩] ∧
    gitDiffStatusAndStats
        [":100644 100644 abc1234 def5678 C085".toList, old, nw,
         "5\t2\t".toList, old, nw] =
      [⟨nw, .added, 5, 2⟩] ∧
    normalizeNumstatPath "src/\x7bold => new\x7d/file.rs".toList =
      "src/new/file.rs".toList ∧
    normalizeNumstatPath "old.txt => new.txt".toList = "new.txt".toList := by
  refine ⟨?_, ?_, by decide, by decide⟩
  · rw [gitDiffStatusAndStats,
      diffParseLoop_rawRC_step ":100644 100644 abc1234 def5678 R100".toList old nw
        ["5\t2\t".toList, old, nw] ⟨[], [], []⟩ rfl (Or.inl (by decide)),
      diffParseLoop_numstatRename_step "5\t2\t".toList old nw [] _ (by decide)
        (by decide) (Or.inl (by decide)) (by decide) (by decide),
      diffParseLoop]
    simp [buildEntries, registerRC, registerRenameStats, rcStatus, rawStatusChar,
      lookupA, insertA, hnw]
    decide
  · rw [gitDiffStatusAndStats,
      diffParseLoop_rawRC_step ":100644 100644 abc1234 def5678 C085".toList old nw
        ["5\t2\t".toList, old, nw] ⟨[], [], []⟩ rfl (Or.inr (by decide)),
      diffParseLoop_numstatRename_step "5\t2\t".toList old nw [] _ (by decide)
        (by decide) (Or.inl (by decide)) (by decide) (by decide),
      diffParseLoop]
    simp [buildEntries, registerRC, registerRenameStats, rcStatus, rawStatusChar,
      lookupA, insertA, hnw]
    decide

/-- C5 (witness): the rename conclusion at the concrete paths
`old.rs` / `new.rs`. -/
theorem rename_copy_new_path_only_witness :
    "new.rs".toList ≠ ([] : Str) ∧
    gitDiffStatusAndStats
        [":100644 100644 abc1234 def5678 R100".toList, "old.rs".toList,
         "new.rs".toList, "5\t2\t".toList, "old.rs".toList, "new.rs".toList] =
      [⟨"new.rs".toList, .renamed, 5, 2⟩] :=
  ⟨by decide,
   (rename_copy_new_path_only "old.rs".toList "new.rs".toList (by decide)).1⟩

/-! ## Claim C6: collector precedence (worktree > index > untracked) -/

/-- The index-only loop appends exactly the index entries whose path is not
in the seen set, in order. -/
theorem addIndexFiles_fst (es : List FileEntry) :
    ∀ (files : List FileEntry) (seen : List Str),
    (es.map (·.path)).Nodup →
    (addIndexFiles es files seen).1 =
      files ++ es.filter (fun e => !seen.contains e.path) := by
  induction es with
  | nil => intro files seen _; simp [addIndexFiles]
  | cons e es ih =>
    intro files seen hnd
    simp only [List.map_cons, List.nodup_cons] at hnd
    rw [addIndexFiles]
    by_cases hc : e.path ∈ seen
    · have hcb : seen.contains e.path = true := by simpa using hc
      rw [if_pos hcb, ih files seen hnd.2]
      congr 1
      rw [List.filter_cons]
      simp [hc]
    · have hcb : ¬seen.contains e.path = true := by simpa using hc
      rw [if_neg hcb, ih (files ++ [e]) (e.path :: seen) hnd.2]
      rw [List.filter_cons]
      simp only [hcb, List.append_assoc, List.singleton_append]
      have hfc : List.filter (fun x => !(e.path :: seen).contains x.path) es =
          List.filter (fun x => !seen.contains x.path) es := by
        apply List.filter_congr
        intro x hx
        have hne : x.path ≠ e.path := fun h => hnd.1 (h ▸ List.mem_map_of_mem (·.path) hx)
        simp [List.contains_cons, hne]
      rw [hfc]
      simp [hc]

/-- After the index-only loop the seen set holds exactly the initial seen
paths plus all index paths. -/
theorem addIndexFiles_seen_mem (es : List FileEntry) :
    ∀ (files : List FileEntry) (seen : List Str) (q : Str),
    (q ∈ (addIndexFiles es files seen).2 ↔ q ∈ seen ∨ q ∈ es.map (·.path)) := by
  induction es with
  | nil => intro files seen q; simp [addIndexFiles]
  | cons e es ih =>
    intro files seen q
    rw [addIndexFiles]
    by_cases hc : e.path ∈ seen
    · have hcb : seen.contains e.path = true := by simpa using hc
      rw [if_pos hcb, ih]
      simp only [List.map_cons, List.mem_cons]
      constructor
      · rintro (h | h)
        · exact Or.inl h
        · exact Or.inr (Or.inr h)
      · rintro (h | h | h)
        · exact Or.inl h
        · exact Or.inl (h ▸ hc)
        · exact Or.inr h
    · have hcb : ¬seen.contains e.path = true := by simpa using hc
      rw [if_neg hcb, ih]
      simp only [List.map_cons, List.mem_cons]
      tauto

/-- The untracked loop keeps exactly the non-empty paths outside the seen
set, producing the untracked entries in order. -/
theorem addUntracked_eq (fsRead : Str → Option Bytes) (workP indexP : List Str) :
    ∀ (us : List Str) (seen : List Str),
    [] ∉ us →
    (∀ q, q ∈ seen ↔ q ∈ workP ∨ q ∈ indexP) →
    addUntracked fsRead us seen =
      (us.filter (fun p => !workP.contains p && !indexP.contains p)).map
        (untrackedEntry fsRead) := by
  intro us
  induction us with
  | nil => intro seen _ _; simp [addUntracked]
  | cons p ps ih =>
    intro seen hne hseen
    have hpne : p ≠ [] := fun h => hne (h ▸ List.mem_cons_self p ps)
    rw [addUntracked]
    rw [List.filter_cons]
    by_cases hc : p ∈ seen
    · have : p = [] ∨ seen.contains p = true := Or.inr (by simpa using hc)
      rw [if_pos this, ih seen (fun h => hne (List.mem_cons_of_mem _ h)) hseen]
      rcases (hseen p).mp hc with h | h <;> simp [h]
    · have h1 : ¬(p = [] ∨ seen.contains p = true) := by
        rintro (h | h)
        · exact hpne h
        · exact hc (by simpa using h)
      rw [if_neg h1, ih seen (fun h => hne (List.mem_cons_of_mem _ h)) hseen]
      have hw : p ∉ workP := fun h => hc ((hseen p).mpr (Or.inl h))
      have hi : p ∉ indexP := fun h => hc ((hseen p).mpr (Or.inr h))
      simp [hw, hi]

/-- C6: with both diff queries succeeding, the collected list is the
working-tree entries, then exactly those index entries whose path is not
already present from the working-tree diff, then untracked entries for
exactly those paths present in neither diff, appended last. -/
theorem getChangedFiles_precedence (work index : List FileEntry)
    (untracked : List Str) (fsRead : Str → Option Bytes)
    (hnd : (index.map (·.path)).Nodup) (hne : [] ∉ untracked) :
    getChangedFiles (.ok work) (.ok index) untracked fsRead =
      .ok (work ++ index.filter (fun e => !(work.map (·.path)).contains e.path) ++
        (untracked.filter (fun p =>
            !(work.map (·.path)).contains p && !(index.map (·.path)).contains p)).map
          (untrackedEntry fsRead)) := by
  rw [getChangedFiles]
  rw [addIndexFiles_fst index work (work.map (·.path)) hnd]
  rw [addUntracked_eq fsRead (work.map (·.path)) (index.map (·.path)) untracked _ hne
    (fun q => addIndexFiles_seen_mem index work (work.map (·.path)) q)]

/-- C6 (witness): a concrete run — `w.rs` from the worktree diff wins over
its index copy, `i.rs` survives from the index diff, and only the fresh
untracked path `u.txt` is appended. -/
theorem getChangedFiles_precedence_witness :
    ((([⟨"w.rs".toList, .modified, 9, 9⟩,
        ⟨"i.rs".toList, .added, 2, 0⟩] : List FileEntry).map (·.path)).Nodup ∧
      ([] : Str) ∉ ["u.txt".toList, "w.rs".toList]) ∧
    getChangedFiles
        (.ok [⟨"w.rs".toList, .modified, 1, 1⟩])
        (.ok [⟨"w.rs".toList, .modified, 9, 9⟩, ⟨"i.rs".toList, .added, 2, 0⟩])
        ["u.txt".toList, "w.rs".toList] (fun _ => none) =
      .ok [⟨"w.rs".toList, .modified, 1, 1⟩, ⟨"i.rs".toList, .added, 2, 0⟩,
        ⟨"u.txt".toList, .added, 0, 0⟩] :=
  ⟨⟨by decide, by decide⟩,
   (getChangedFiles_precedence [⟨"w.rs".toList, .modified, 1, 1⟩]
      [⟨"w.rs".toList, .modified, 9, 9⟩, ⟨"i.rs".toList, .added, 2, 0⟩]
      ["u.txt".toList, "w.rs".toList] (fun _ => none)
      (by decide) (by decide)).trans (congrArg Except.ok (by decide))⟩

/-! ## Claim C7: binary or unreadable untracked files degrade to zero stats -/

/-- C7: an untracked file that is binary or unreadable yields the entry
`{path, Added, additions := 0, deletions := 0}`, and the call still succeeds
(`Except.ok`) rather than failing. -/
theorem untracked_binary_or_unreadable (p : Str) (fsRead : Str → Option Bytes)
    (hp : p ≠ [])
    (h : fsRead p = none ∨ ∃ b, fsRead p = some b ∧ isBinary b = true) :
    getChangedFiles (.ok []) (.ok []) [p] fsRead = .ok [⟨p, .added, 0, 0⟩] := by
  rcases h with hn | ⟨b, hb, hbin⟩
  · simp [getChangedFiles, addIndexFiles, addUntracked, untrackedEntry, hp, hn]
  · simp [getChangedFiles, addIndexFiles, addUntracked, untrackedEntry, hp, hb,
      untrackedLineCount, hbin]

/-- C7 (witness): a concrete binary untracked file (a NUL byte in its first
bytes) produces the zero-stat Added entry. -/
theorem untracked_binary_or_unreadable_witness :
    ("img.png".toList ≠ ([] : Str) ∧
      ((fun _ => some [137, 0, 13] : Str → Option Bytes) "img.png".toList = none ∨
        ∃ b, (fun _ => some [137, 0, 13] : Str → Option Bytes) "img.png".toList =
          some b ∧ isBinary b = true)) ∧
    getChangedFiles (.ok []) (.ok []) ["img.png".toList]
        (fun _ => some [137, 0, 13]) =
      .ok [⟨"img.png".toList, .added, 0, 0⟩] :=
  ⟨⟨by decide, Or.inr ⟨[137, 0, 13], rfl, by decide⟩⟩,
   untracked_binary_or_unreadable "img.png".toList (fun _ => some [137, 0, 13])
     (by decide) (Or.inr ⟨[137, 0, 13], rfl, by decide⟩)⟩

/-! ## Claim C9: expansion state after a rebuild -/

/-- C9: on a rebuild the new expansion set is
`(old ∩ dirs(newTree)) ∪ (dirs(newTree) − dirs(oldTree))`; in particular,
starting from `{A, A/B}`, a rebuild whose new tree adds directory `A/C` while
`A/B` persists yields exactly `{A, A/B, A/C}`. -/
theorem apply_expansion_rebuild_spec (expanded : List Str)
    (oldTree newTree : List TreeNode) (q : Str) :
    (q ∈ applyExpansionRebuild expanded oldTree newTree ↔
      ((q ∈ expanded ∧ q ∈ expandAllDirs newTree []) ∨
        (q ∈ expandAllDirs newTree [] ∧ q ∉ expandAllDirs oldTree []))) ∧
    applyExpansionRebuild ["A".toList, "A/B".toList]
        (buildTree [⟨"A/f1.rs".toList, .modified, 1, 0⟩,
          ⟨"A/B/f2.rs".toList, .modified, 1, 0⟩])
        (buildTree [⟨"A/f1.rs".toList, .modified, 1, 0⟩,
          ⟨"A/B/f2.rs".toList, .modified, 1, 0⟩,
          ⟨"A/C/f3.rs".toList, .added, 1, 0⟩]) =
      ["A".toList, "A/B".toList, "A/C".toList] := by
  constructor
  · simp only [applyExpansionRebuild, List.mem_append, List.mem_filter]
    simp [and_comm]
  · simp [applyExpansionRebuild, buildTree, insertIntoTree, insertIntoDir, splitChar,
      sortTree, sortEach, sortNode, List.mergeSort, nodeLe, TreeNode.name,
      TreeNode.isDir, strLe, lastSeg, compactList, compactNode, mergeLoop,
      expandAllDirs, joinPath]

/-! ## Claim C10: get_file_diff is total and degrades gracefully -/

/-- A successful early return of `get_file_diff` carries non-empty lines. -/
theorem firstNonEmptyLines_ne (o : Option Str) (ls : List Str)
    (h : firstNonEmptyLines o = some ls) : ls ≠ [] := by
  match o with
  | none => simp [firstNonEmptyLines] at h
  | some t =>
    rw [firstNonEmptyLines] at h
    by_cases he : rustLines t ≠ []
    · rw [if_pos he] at h
      exact (Option.some.injEq _ _ ▸ h) ▸ he
    · rw [if_neg he] at h
      exact absurd h (by simp)

/-- C10: `get_file_diff` always returns a non-empty list of lines; when the
worktree and index diffs are empty or failed and the file is unreadable it
returns Worktree provenance with the single line "Error getting diff"; when
the file is readable it synthesizes a new-file diff with Untracked
provenance. -/
theorem getFileDiff_total_fallback (path : Str) (w i : Option Str)
    (fb : Option Bytes) :
    (getFileDiff path w i fb).2 ≠ [] ∧
    (firstNonEmptyLines w = none → firstNonEmptyLines i = none →
      (fb = none →
        getFileDiff path w i fb = (.worktree, ["Error getting diff".toList])) ∧
      (∀ bytes, fb = some bytes →
        (getFileDiff path w i fb).1 = .untracked ∧
        (getFileDiff path w i fb).2.take 4 =
          ["diff --git a/".toList ++ path ++ " b/".toList ++ path,
           "new file mode 100644".toList,
           "--- /dev/null".toList,
           "+++ b/".toList ++ path])) := by
  refine ⟨?_, fun hw hi => ⟨fun hfb => ?_, fun bytes hfb => ?_⟩⟩
  · cases hw' : firstNonEmptyLines w with
    | some ls =>
      simp only [getFileDiff, hw']
      exact firstNonEmptyLines_ne w ls hw'
    | none =>
      cases hi' : firstNonEmptyLines i with
      | some ls =>
        simp only [getFileDiff, hw', hi']
        exact firstNonEmptyLines_ne i ls hi'
      | none =>
        match fb with
        | none => simp [getFileDiff, hw', hi', getFileDiffFallback]
        | some bytes =>
          by_cases h0 : bytes = []
          · simp [getFileDiff, hw', hi', getFileDiffFallback, h0]
          · by_cases hbin : isBinary bytes <;>
              simp [getFileDiff, hw', hi', getFileDiffFallback, h0, hbin]
  · simp [getFileDiff, hw, hi, hfb, getFileDiffFallback]
  · subst hfb
    by_cases h0 : bytes = []
    · simp [getFileDiff, hw, hi, getFileDiffFallback, h0]
    · by_cases hbin : isBinary bytes <;>
        simp [getFileDiff, hw, hi, getFileDiffFallback, h0, hbin]

/-- C10 (witness): with both diffs empty/failed, an unreadable file yields
the error line with Worktree provenance, and a readable one-byte file yields
Untracked provenance with the synthesized header. -/
theorem getFileDiff_total_fallback_witness :
    (firstNonEmptyLines none = none ∧
      firstNonEmptyLines (some "".toList) = none) ∧
    getFileDiff "x.rs".toList none (some "".toList) none =
      (.worktree, ["Error getting diff".toList]) ∧
    (getFileDiff "x.rs".toList none (some "".toList) (some [104])).1 =
      .untracked :=
  ⟨⟨by decide, by decide⟩,
   ((getFileDiff_total_fallback "x.rs".toList none (some "".toList) none).2
      (by decide) (by decide)).1 rfl,
   (((getFileDiff_total_fallback "x.rs".toList none (some "".toList)
        (some [104])).2 (by decide) (by decide)).2 [104] rfl).1⟩

/-! ## Claim C2: compaction merges only pure single chains -/

/-- `compact_tree` preserves the number of nodes at each level. -/
theorem compactList_length (ns : List TreeNode) :
    (compactList ns).length = ns.length := by
  induction ns with
  | nil => rfl
  | cons n ns ih => simp [compactList, ih]

/-- The merge loop always returns a directory with as many children as the
list it started from. -/
theorem mergeLoop_shape (n : Str) (cs : List TreeNode) :
    ∃ n' cs', mergeLoop n cs = .dir n' cs' ∧ cs'.length = cs.length := by
  induction n, cs using mergeLoop.induct with
  | case1 n cn gc hlen ih =>
    obtain ⟨n', cs', he, hl⟩ := ih
    rw [mergeLoop, if_pos hlen]
    exact ⟨n', cs', he, by simp [hl, hlen]⟩
  | case2 n cn gc hlen =>
    rw [mergeLoop, if_neg hlen]
    exact ⟨n, [.dir cn gc], rfl, rfl⟩
  | case3 n cs hne =>
    rw [mergeLoop.eq_def]
    split
    · rename_i cn gc
      exact (hne cn gc rfl).elim
    · exact ⟨n, cs, rfl, rfl⟩

/-- `compact_tree` turns a directory into a directory with the same number
of children. -/
theorem compactNode_dir (n : Str) (cs : List TreeNode) :
    ∃ n' cs', compactNode (.dir n cs) = .dir n' cs' ∧ cs'.length = cs.length := by
  obtain ⟨n', cs', he, hl⟩ := mergeLoop_shape n (compactList cs)
  exact ⟨n', cs', by rw [compactNode, he], by rw [hl, compactList_length]⟩

/-- If the merge condition fails (not a sole directory child with exactly
one child), the merge loop changes nothing. -/
theorem mergeLoop_eq_of_not (n : Str) (l : List TreeNode)
    (h : ∀ cn gc, l = [TreeNode.dir cn gc] → gc.length ≠ 1) :
    mergeLoop n l = .dir n l := by
  rw [mergeLoop.eq_def]
  split
  · rename_i cn gc
    exact if_neg (h cn gc rfl)
  · rfl

/-- C2: at every recursion depth, compaction merges a directory with its
sole child only when that (compacted) child is a directory with exactly one
child: whenever the children list is not a single directory with a single
child — in particular when it has two or more children at either level — the
directory's name is untouched and only its children are compacted. -/
theorem compact_merges_only_single_chain (n : Str) (cs : List TreeNode)
    (h : ¬∃ cn gc, cs = [TreeNode.dir cn gc] ∧ gc.length = 1) :
    compactNode (.dir n cs) = .dir n (compactList cs) := by
  rw [compactNode]
  apply mergeLoop_eq_of_not
  intro cn gc hgl hglen
  apply h
  cases cs with
  | nil => simp [compactList] at hgl
  | cons y ys =>
    cases ys with
    | cons z zs =>
      have := congrArg List.length hgl
      simp [compactList, compactList_length] at this
    | nil =>
      have hy : compactNode y = .dir cn gc := by simpa [compactList] using hgl
      cases y with
      | file f => simp [compactNode] at hy
      | dir yn ycs =>
        obtain ⟨n', cs', he, hl⟩ := compactNode_dir yn ycs
        rw [he] at hy
        refine ⟨yn, ycs, rfl, ?_⟩
        have hgc : cs' = gc := (TreeNode.dir.inj hy).2
        rw [← hl, hgc, hglen]

/-- C2 (witness): a branching directory (two file children) is left intact,
name unchanged, by compaction. -/
theorem compact_merges_only_single_chain_witness :
    (¬∃ cn gc,
        [TreeNode.file ⟨"a/x.rs".toList, .modified, 1, 0⟩,
         TreeNode.file ⟨"a/y.rs".toList, .added, 2, 0⟩] =
          [TreeNode.dir cn gc] ∧ gc.length = 1) ∧
    compactNode (.dir "a".toList
        [.file ⟨"a/x.rs".toList, .modified, 1, 0⟩,
         .file ⟨"a/y.rs".toList, .added, 2, 0⟩]) =
      .dir "a".toList
        (compactList
          [.file ⟨"a/x.rs".toList, .modified, 1, 0⟩,
           .file ⟨"a/y.rs".toList, .added, 2, 0⟩]) :=
  ⟨by rintro ⟨cn, gc, h, -⟩; simp at h,
   compact_merges_only_single_chain "a".toList
     [.file ⟨"a/x.rs".toList, .modified, 1, 0⟩,
      .file ⟨"a/y.rs".toList, .added, 2, 0⟩]
     (by rintro ⟨cn, gc, h, -⟩; simp at h)⟩

/-! ## Claim C8: watcher invalidation scope -/

/-- Any message emitted by the tick tail carries exactly the
`invalidate_all` flag it was given. -/
theorem tickTail_invalidateAll (st : WatcherState) (obs : TickObs)
    (ia nr gd : Bool) (msg : WatcherMsg)
    (h : (tickTail st obs ia nr gd).2 = some msg) : msg.invalidateAll = ia := by
  rw [tickTail] at h
  repeat' split at h
  all_goals try simp only [Option.some.injEq] at h
  all_goals
    first
      | exact absurd h (by simp)
      | (subst h; rfl)


/-- When some tracked file's mtime changed, the tick tail emits a message
whose `invalidate_paths` is the set of changed tracked paths. -/
theorem tickTail_emits (st : WatcherState) (obs : TickObs) (ia nr gd : Bool)
    (hne : ((st.files.map (·.path)).filter
      (fun p => lookupA st.fileMtimes p !=
        lookupA (getFileMtimes st.files obs.fileMtime) p)).isEmpty = false)
    (fl : List FileEntry) (hcf : obs.changedFiles = .ok fl) :
    (tickTail st obs ia nr gd).2 =
      some ⟨fl, st.mergeBase, ia,
        (st.files.map (·.path)).filter
          (fun p => lookupA st.fileMtimes p !=
            lookupA (getFileMtimes st.files obs.fileMtime) p)⟩ := by
  rw [tickTail]
  simp only [hne, Bool.not_false, Bool.true_or, if_true, hcf]
  rcases obs.statusHash with e | hv
  · simp
  · by_cases hveq : hv = st.lastStatusHash
    · simp [hveq]
    · simp [hveq]


/-- C8: (1) when no git control file's mtime changed, exactly one tracked
file's mtime changed, and collection succeeds, the tick emits an update with
`invalidate_all = false` and `invalidate_paths` equal to the singleton of
that file's path; (2) whenever the index file's mtime changed, any emitted
update has `invalidate_all = true`. -/
theorem watcher_single_file_and_index (st : WatcherState) (obs : TickObs) :
    ((obs.indexMtime = st.lastIndexMtime ∧ obs.headMtime = st.lastHeadMtime ∧
        obs.refsHeadsMtime = st.lastRefsHeadsMtime ∧
        obs.refsRemotesMtime = st.lastRefsRemotesMtime ∧
        obs.packedRefsMtime = st.lastPackedRefsMtime) →
      ∀ (p : Str) (fl : List FileEntry), obs.changedFiles = .ok fl →
        p ∈ st.files.map (·.path) →
        lookupA st.fileMtimes p ≠ lookupA (getFileMtimes st.files obs.fileMtime) p →
        (∀ q, q ∈ st.files.map (·.path) → q ≠ p →
          lookupA st.fileMtimes q = lookupA (getFileMtimes st.files obs.fileMtime) q) →
        ∃ msg, (watcherTick st obs).2 = some msg ∧
          msg.invalidateAll = false ∧ (∀ q, q ∈ msg.invalidatePaths ↔ q = p)) ∧
    (obs.indexMtime ≠ st.lastIndexMtime →
      ∀ msg, (watcherTick st obs).2 = some msg → msg.invalidateAll = true) := by
  constructor
  · rintro ⟨h1, h2, h3, h4, h5⟩ p fl hcf hp hneq hsame
    have hpaths : ∀ q,
        (q ∈ (st.files.map (·.path)).filter
          (fun r => lookupA st.fileMtimes r !=
            lookupA (getFileMtimes st.files obs.fileMtime) r)) ↔ q = p := by
      intro q
      simp only [List.mem_filter, bne_iff_ne]
      constructor
      · rintro ⟨hin, hne'⟩
        by_contra hqp
        exact hne' (hsame q hin hqp)
      · rintro rfl
        exact ⟨hp, hneq⟩
    have hmem : p ∈ (st.files.map (·.path)).filter
        (fun r => lookupA st.fileMtimes r !=
          lookupA (getFileMtimes st.files obs.fileMtime) r) := (hpaths p).mpr rfl
    have hcne : ((st.files.map (·.path)).filter
        (fun r => lookupA st.fileMtimes r !=
          lookupA (getFileMtimes st.files obs.fileMtime) r)).isEmpty = false := by
      rcases hl : (st.files.map (·.path)).filter
          (fun r => lookupA st.fileMtimes r !=
            lookupA (getFileMtimes st.files obs.fileMtime) r) with _ | ⟨a, tl⟩
      · rw [hl] at hmem; simp at hmem
      · rw [hl]; rfl
    rw [watcherTick]
    simp only [h1, h2, h3, h4, h5, bne_self_eq_false, Bool.or_self, Bool.false_or,
      Bool.false_and, Bool.and_false, Bool.and_self, Bool.false_eq_true, if_false,
      ite_false]
    exact ⟨_, tickTail_emits st obs false false false hcne fl hcf, rfl, hpaths⟩
  · intro hne msg hmsg
    have hb : (obs.indexMtime != st.lastIndexMtime) = true := by
      simpa [bne_iff_ne] using hne
    rw [watcherTick] at hmsg
    simp only [hb, Bool.true_or, Bool.true_and, Bool.and_true, if_true] at hmsg
    repeat' split at hmsg
    all_goals
      first
        | simp at hmsg
        | exact tickTail_invalidateAll _ _ _ _ _ _ hmsg

/-- C8 (witness): a concrete repository state: changing only `src/a.rs`
yields a singleton non-full invalidation; changing the index mtime yields a
full invalidation on the emitted message. -/
theorem watcher_single_file_and_index_witness :
    (∃ msg,
      (watcherTick
        ⟨"mb".toList, [⟨"src/a.rs".toList, .modified, 1, 0⟩], "h".toList,
          "b".toList, 7, some 1, some 2, some 3, none, some 4,
          [("src/a.rs".toList, 10)]⟩
        ⟨some 1, some 2, some 3, none, some 4, .ok "h".toList, .ok "b".toList,
          .ok "mb".toList, .ok 7,
          (fun p => if p = "src/a.rs".toList then some 2 else none),
          .ok []⟩).2 = some msg ∧
      msg.invalidateAll = false ∧
      (∀ q, q ∈ msg.invalidatePaths ↔ q = "src/a.rs".toList)) ∧
    (∀ msg,
      (watcherTick
        ⟨"mb".toList, [⟨"src/a.rs".toList, .modified, 1, 0⟩], "h".toList,
          "b".toList, 7, some 1, some 2, some 3, none, some 4,
          [("src/a.rs".toList, 10)]⟩
        ⟨some 42, some 2, some 3, none, some 4, .ok "h".toList, .ok "b".toList,
          .ok "mb".toList, .ok 7,
          (fun p => if p = "src/a.rs".toList then some 10 else none),
          .ok []⟩).2 = some msg → msg.invalidateAll = true) :=
  ⟨(watcher_single_file_and_index _ _).1 ⟨rfl, rfl, rfl, rfl, rfl⟩
      "src/a.rs".toList [] rfl (by decide) (by decide)
      (by intro q hq hqp; simp at hq; exact absurd hq hqp),
   fun msg h => (watcher_single_file_and_index _ _).2 (by decide) msg h⟩

/-! ## Claim C4: flattening reproduces the ChangeSet paths -/

/-- A split is never empty. -/
theorem splitChar_ne_nil (sep : Char) (s : Str) : splitChar sep s ≠ [] := by
  induction s with
  | nil => simp [splitChar]
  | cons c cs ih =>
    rw [splitChar]
    by_cases hc : c = sep
    · simp [hc]
    · rw [if_neg hc]
      rcases h : splitChar sep cs with _ | ⟨a, tl⟩
      · simp
      · simp

/-- `filesOfList` distributes over cons via `nodeFiles`. -/
theorem filesOfList_cons (x : TreeNode) (xs : List TreeNode) :
    filesOfList (x :: xs) = nodeFiles x ++ filesOfList xs := by
  cases x with
  | file f => simp [filesOfList, nodeFiles]
  | dir n cs => simp [filesOfList, nodeFiles]

/-- `filesOfList` distributes over append. -/
theorem filesOfList_append (as bs : List TreeNode) :
    filesOfList (as ++ bs) = filesOfList as ++ filesOfList bs := by
  induction as with
  | nil => simp [filesOfList]
  | cons a as ih =>
    rw [List.cons_append, filesOfList_cons, filesOfList_cons, ih, List.append_assoc]

/-- `filesOfList` as a flatten of per-node file lists. -/
theorem filesOfList_eq_flatten (l : List TreeNode) :
    filesOfList l = (l.map nodeFiles).flatten := by
  induction l with
  | nil => simp [filesOfList]
  | cons x xs ih => rw [filesOfList_cons, ih]; simp

/-- Permuting a forest permutes its files. -/
theorem filesOfList_perm {l1 l2 : List TreeNode} (h : l1.Perm l2) :
    (filesOfList l1).Perm (filesOfList l2) := by
  rw [filesOfList_eq_flatten, filesOfList_eq_flatten]
  exact (h.map nodeFiles).flatten

/-- The merge loop preserves the files of the subtree. -/
theorem mergeLoop_files (n : Str) (cs : List TreeNode) :
    nodeFiles (mergeLoop n cs) = filesOfList cs := by
  induction n, cs using mergeLoop.induct with
  | case1 n cn gc hlen ih =>
    rw [mergeLoop, if_pos hlen, ih, filesOfList_cons]
    simp [nodeFiles, filesOfList]
  | case2 n cn gc hlen =>
    rw [mergeLoop, if_neg hlen]
    simp [nodeFiles]
  | case3 n cs hne =>
    rw [mergeLoop_eq_of_not n cs (fun cn gc h => absurd h (fun hh => hne cn gc hh))]
    simp [nodeFiles]

/-- Compaction preserves the files of the forest, in order. -/
theorem compactList_files (ns : List TreeNode) :
    filesOfList (compactList ns) = filesOfList ns := by
  refine compactList.induct (fun n => nodeFiles (compactNode n) = nodeFiles n)
    (fun ns => filesOfList (compactList ns) = filesOfList ns) ?_ ?_ ?_ ?_ ns
  · intro f; rfl
  · intro n cs ih
    rw [compactNode, mergeLoop_files, ih]
    rfl
  · rfl
  · intro n ns ih1 ih2
    rw [compactList, filesOfList_cons, filesOfList_cons, ih1, ih2]

/-- Sorting permutes the files of the forest. -/
theorem sortTree_files (nodes : List TreeNode) :
    (filesOfList (sortTree nodes)).Perm (filesOfList nodes) := by
  refine sortTree.induct (fun nodes => (filesOfList (sortTree nodes)).Perm (filesOfList nodes))
    (fun ns => (filesOfList (sortEach ns)).Perm (filesOfList ns))
    (fun n => (nodeFiles (sortNode n)).Perm (nodeFiles n)) ?_ ?_ ?_ ?_ ?_ nodes
  · intro ns ih
    rw [sortTree]
    exact (filesOfList_perm (List.mergeSort_perm (sortEach ns) nodeLe)).trans ih
  · simp [sortEach]
  · intro n ns ih1 ih2
    rw [sortEach, filesOfList_cons, filesOfList_cons]
    exact ih1.append ih2
  · intro f
    simp [sortNode]
  · intro n cs ih
    rw [sortNode]
    simpa [nodeFiles] using ih

/-- Inserting a path adds exactly that file entry to the forest. -/
theorem insertIntoTree_files (nodes : List TreeNode) (parts : List Str)
    (f : FileEntry) (hp : parts ≠ []) :
    (filesOfList (insertIntoTree nodes parts f)).Perm (filesOfList nodes ++ [f]) := by
  refine insertIntoTree.induct
    (fun nodes parts f => parts ≠ [] →
      (filesOfList (insertIntoTree nodes parts f)).Perm (filesOfList nodes ++ [f]))
    (fun nodes p rest f => rest ≠ [] →
      (filesOfList (insertIntoDir nodes p rest f)).Perm (filesOfList nodes ++ [f]))
    ?_ ?_ ?_ ?_ ?_ ?_ ?_ nodes parts f hp
  · intro nodes f h; exact absurd rfl h
  · intro nodes f hd _
    rw [insertIntoTree, filesOfList_append]
    simp [filesOfList]
  · intro nodes f p rest hrest ih _
    cases rest with
    | nil => exact absurd rfl (fun h => hrest h)
    | cons r rs =>
      rw [insertIntoTree]
      · exact ih (by simp)
      · simp
  · intro p rest f ih hrest
    rw [insertIntoDir, filesOfList_cons]
    simpa [nodeFiles, filesOfList] using ih hrest
  · intro rest f name children ns ih hrest
    rw [insertIntoDir, if_pos rfl, filesOfList_cons, filesOfList_cons]
    simp only [nodeFiles]
    refine ((ih hrest).append (List.Perm.refl (filesOfList ns))).trans ?_
    simp only [List.append_assoc]
    exact (List.Perm.refl _).append List.perm_append_comm
  · intro p rest f name children ns hne ih hrest
    rw [insertIntoDir, if_neg hne, filesOfList_cons, filesOfList_cons]
    refine ((List.Perm.refl (nodeFiles (TreeNode.dir name children))).append (ih hrest)).trans ?_
    simp only [List.append_assoc]
    exact List.Perm.refl _
  · intro p rest f n ns hnotdir ih hrest
    cases n with
    | dir a b => exact absurd rfl (hnotdir a b)
    | file g =>
      rw [insertIntoDir]
      rw [filesOfList_cons, filesOfList_cons]
      · refine ((List.Perm.refl (nodeFiles (TreeNode.file g))).append (ih hrest)).trans ?_
        simp only [List.append_assoc]
        exact List.Perm.refl _
      · exact hnotdir

/-- The insertion fold accumulates exactly the ChangeSet entries. -/
theorem buildRoot_files (fs : List FileEntry) :
    ∀ (acc : List TreeNode),
    (filesOfList (fs.foldl (fun acc f => insertIntoTree acc (splitChar '/' f.path) f) acc)).Perm
      (filesOfList acc ++ fs) := by
  induction fs with
  | nil => intro acc; simp
  | cons f fs ih =>
    intro acc
    rw [List.foldl_cons]
    refine (ih _).trans ?_
    have h1 := insertIntoTree_files acc (splitChar '/' f.path) f (splitChar_ne_nil _ _)
    refine (h1.append (List.Perm.refl fs)).trans ?_
    rw [List.append_assoc]
    exact List.Perm.refl _

/-- The files of the built tree are a permutation of the ChangeSet. -/
theorem buildTree_files (fs : List FileEntry) :
    (filesOfList (buildTree fs)).Perm fs := by
  rw [buildTree]
  rw [compactList_files]
  refine (sortTree_files _).trans ?_
  simpa [filesOfList] using buildRoot_files fs []

/-- With every directory of the subtree expanded, the pre-order flattening
lists exactly the files of the subtree, in order. -/
theorem collectVisible_full (ns : List TreeNode) (pre : Str) (depth : Nat)
    (expanded : List Str)
    (hexp : ∀ d ∈ expandAllDirs ns pre, expanded.contains d = true) :
    (collectVisible ns pre depth expanded).filterMap fileRowPath =
      (filesOfList ns).map (·.path) := by
  induction ns, pre, depth, expanded using collectVisible.induct with
  | case1 pre depth expanded => simp [collectVisible, filesOfList]
  | case2 f ns pre depth expanded ih =>
    rw [collectVisible, List.filterMap_cons]
    simp only [fileRowPath]
    rw [ih (fun d hd => hexp d (by simpa [expandAllDirs] using hd))]
    rw [filesOfList_cons]
    simp [nodeFiles]
  | case3 n cs ns pre depth expanded ih1 ih2 =>
    rw [collectVisible]
    have hin : expanded.contains (joinPath pre n) = true := by
      refine hexp _ ?_
      rw [expandAllDirs]
      exact List.mem_cons_self _ _
    have hcs : ∀ d ∈ expandAllDirs cs (joinPath pre n),
        expanded.contains d = true := by
      intro d hd
      refine hexp d ?_
      rw [expandAllDirs]
      exact List.mem_cons_of_mem _ (List.mem_append_left _ hd)
    have hns : ∀ d ∈ expandAllDirs ns pre, expanded.contains d = true := by
      intro d hd
      refine hexp d ?_
      rw [expandAllDirs]
      exact List.mem_cons_of_mem _ (List.mem_append_right _ hd)
    rw [List.filterMap_cons]
    simp only [fileRowPath, hin, if_true]
    rw [List.filterMap_append, ih1 hcs, ih2 hns, filesOfList_cons]
    simp [nodeFiles]
/-- C4 (counterexample): with the empty ExpansionState, flattening the tree
built from `[a/b.rs]` collects no file paths at all, so the claim fails for
that ExpansionState. -/
theorem c4_claim_refuted :
    ¬ ∀ (p : Str),
        p ∈ visibleFilePaths (buildTree [⟨"a/b.rs".toList, .modified, 1, 0⟩]) [] ↔
          p ∈ ([⟨"a/b.rs".toList, .modified, 1, 0⟩] : List FileEntry).map (·.path) := by
  intro h
  have h2 := (h "a/b.rs".toList).mpr (by simp)
  simp [visibleFilePaths, buildTree, insertIntoTree, insertIntoDir, splitChar, sortTree,
    sortEach, sortNode, List.mergeSort, nodeLe, TreeNode.name, TreeNode.isDir, strLe,
    lastSeg, compactList, compactNode, mergeLoop, collectVisible, fileRowPath,
    joinPath] at h2

/-- C4 (amended): for every ChangeSet, when the ExpansionState contains all
directories of the built tree (as `expand_all_dirs` produces at startup),
the pre-order flattening's file paths are exactly the ChangeSet's paths. -/
theorem c4_visible_paths_amended (fs : List FileEntry) (p : Str) :
    p ∈ visibleFilePaths (buildTree fs) (expandAllDirs (buildTree fs) []) ↔
      p ∈ fs.map (·.path) := by
  rw [visibleFilePaths, collectVisible_full _ _ _ _ (fun d hd => by simpa using hd)]
  exact ((buildTree_files fs).map (·.path)).mem_iff

/-! ## Claim C3: ordering of build_tree output -/

/-- Lexicographic comparison is total. -/
theorem strLe_total (a b : Str) : (strLe a b || strLe b a) = true := by
  induction a generalizing b with
  | nil => simp [strLe]
  | cons x xs ih =>
    cases b with
    | nil => simp [strLe]
    | cons y ys =>
      by_cases hxy : x = y
      · subst hxy
        simp only [strLe, if_pos rfl]
        exact ih ys
      · rcases lt_or_gt_of_ne hxy with h | h
        · simp [strLe, hxy, Ne.symm hxy, h]
        · simp [strLe, hxy, Ne.symm hxy, h]

/-- Lexicographic comparison is transitive. -/
theorem strLe_trans (a b c : Str) (hab : strLe a b = true) (hbc : strLe b c = true) :
    strLe a c = true := by
  induction a generalizing b c with
  | nil => simp [strLe]
  | cons x xs ih =>
    cases b with
    | nil => simp [strLe] at hab
    | cons y ys =>
      cases c with
      | nil => simp [strLe] at hbc
      | cons z zs =>
        by_cases hxy : x = y <;> by_cases hyz : y = z
        · subst hxy; subst hyz
          simp only [strLe, if_pos rfl] at hab hbc ⊢
          exact ih ys zs hab hbc
        · subst hxy
          simp only [strLe, if_pos rfl, if_neg hyz] at hbc ⊢
          exact hbc
        · subst hyz
          simp only [strLe, if_pos rfl, if_neg hxy] at hab ⊢
          exact hab
        · simp only [strLe, if_neg hxy, if_neg hyz, decide_eq_true_eq] at hab hbc
          have hxz : x ≠ z := fun h => absurd (h ▸ hab) (by simp [hbc, lt_asymm])
          simp only [strLe, if_neg hxz, decide_eq_true_eq]
          exact lt_trans hab hbc

/-- The sort comparator is total. -/
theorem nodeLe_total (a b : TreeNode) : (nodeLe a b || nodeLe b a) = true := by
  have h := strLe_total a.name b.name
  cases ha : a.isDir <;> cases hb : b.isDir <;> simp only [nodeLe, ha, hb] <;>
    first
      | rfl
      | exact h

/-- The sort comparator is transitive. -/
theorem nodeLe_trans (a b c : TreeNode) (hab : nodeLe a b = true)
    (hbc : nodeLe b c = true) : nodeLe a c = true := by
  rw [nodeLe] at hab hbc ⊢
  cases ha : a.isDir <;> cases hb : b.isDir <;> cases hc : c.isDir <;>
    simp_all <;> exact strLe_trans _ _ _ hab hbc

/-- `pairwiseB` agrees with `List.Pairwise`. -/
theorem pairwiseB_iff {α : Type} (r : α → α → Bool) (l : List α) :
    pairwiseB r l = true ↔ l.Pairwise (fun a b => r a b = true) := by
  induction l with
  | nil => simp [pairwiseB]
  | cons a as ih =>
    simp [pairwiseB, List.pairwise_cons, ih, List.all_eq_true, and_comm]

/-- Membership characterization of `childrenSortedB`. -/
theorem childrenSortedB_iff (l : List TreeNode) :
    childrenSortedB l = true ↔
      ∀ x ∈ l, ∀ nm cs, x = TreeNode.dir nm cs → treeSortedB cs = true := by
  induction l with
  | nil => simp [childrenSortedB]
  | cons x xs ih =>
    cases x with
    | file f =>
      rw [childrenSortedB, ih]
      constructor
      · intro h y hy nm cs heq
        rcases List.mem_cons.mp hy with rfl | hy2
        · cases heq
        · exact h y hy2 nm cs heq
      · intro h y hy nm cs heq
        exact h y (List.mem_cons_of_mem _ hy) nm cs heq
    | dir n cs =>
      rw [childrenSortedB, Bool.and_eq_true, ih]
      constructor
      · rintro ⟨h1, h2⟩ y hy nm cs' heq
        rcases List.mem_cons.mp hy with rfl | hy2
        · cases heq; exact h1
        · exact h2 y hy2 nm cs' heq
      · intro h
        exact ⟨h _ (List.mem_cons_self _ _) n cs rfl,
          fun y hy nm cs' heq => h y (List.mem_cons_of_mem _ hy) nm cs' heq⟩

/-- `sort_tree` output is comparator-pairwise at every level. -/
theorem sortTree_sorted (nodes : List TreeNode) :
    treeSortedB (sortTree nodes) = true := by
  refine sortTree.induct (fun nodes => treeSortedB (sortTree nodes) = true)
    (fun ns => ∀ x ∈ sortEach ns, ∀ nm cs, x = TreeNode.dir nm cs →
      treeSortedB cs = true)
    (fun n => ∀ nm cs, sortNode n = TreeNode.dir nm cs → treeSortedB cs = true)
    ?_ ?_ ?_ ?_ ?_ nodes
  · intro ns ih
    rw [sortTree, treeSortedB, Bool.and_eq_true]
    constructor
    · rw [pairwiseB_iff]
      exact List.sorted_mergeSort nodeLe_trans nodeLe_total (sortEach ns)
    · rw [childrenSortedB_iff]
      intro x hx nm cs heq
      exact ih x ((List.mergeSort_perm (sortEach ns) nodeLe).subset hx) nm cs heq
  · intro x hx
    rw [sortEach] at hx
    simp at hx
  · intro n ns ih1 ih2 x hx
    rw [sortEach] at hx
    rcases List.mem_cons.mp hx with rfl | hx
    · exact ih1
    · exact ih2 x hx
  · intro f nm cs heq
    rw [sortNode] at heq
    cases heq
  · intro n cs ih nm cs' heq
    rw [sortNode] at heq
    cases heq
    exact ih
/-- Segments produced by splitting on `/` are slash-free. -/
theorem splitChar_noSlash (s : Str) :
    ∀ seg ∈ splitChar '/' s, noSlash seg = true := by
  induction s with
  | nil =>
    intro seg hseg
    rw [splitChar] at hseg
    simp at hseg
    simp [hseg, noSlash]
  | cons c cs ih =>
    intro seg hseg
    rw [splitChar] at hseg
    by_cases hc : c = '/'
    · rw [if_pos hc] at hseg
      rcases List.mem_cons.mp hseg with rfl | h
      · simp [noSlash]
      · exact ih seg h
    · rw [if_neg hc] at hseg
      rcases h : splitChar '/' cs with _ | ⟨s0, ss⟩
      · exact absurd h (splitChar_ne_nil _ _)
      · rw [h] at hseg
        rcases List.mem_cons.mp hseg with rfl | hmem
        · have h0 : noSlash s0 = true := ih s0 (h ▸ List.mem_cons_self _ _)
          simp [noSlash] at h0 ⊢
          exact ⟨hc, h0⟩
        · exact ih seg (h ▸ List.mem_cons_of_mem _ hmem)

/-- The first segment of a slash-free name extended by a `/`-suffix is the
original name. -/
theorem firstSeg_append_of (n t : Str) (hn : noSlash n = true)
    (ht : t = [] ∨ t.head? = some '/') : firstSeg (n ++ t) = n := by
  induction n with
  | nil =>
    rcases ht with rfl | hh
    · rfl
    · cases t with
      | nil => rfl
      | cons c cs =>
        simp only [List.head?_cons, Option.some.injEq] at hh
        simp [firstSeg, List.takeWhile, hh]
  | cons c ns ih =>
    simp only [noSlash, List.all_cons, Bool.and_eq_true] at hn
    have h1 : c ≠ '/' := by simpa using hn.1
    have h2 := ih hn.2
    rw [firstSeg] at h2 ⊢
    rw [List.cons_append]
    simp only [List.takeWhile_cons, h2]
    simp [h1]

/-- The merge loop only ever extends the name by a suffix beginning with
`/`. -/
theorem mergeLoop_name (n : Str) (cs : List TreeNode) :
    ∃ t cs', mergeLoop n cs = .dir (n ++ t) cs' ∧
      (t = [] ∨ t.head? = some '/') := by
  induction n, cs using mergeLoop.induct with
  | case1 n cn gc hlen ih =>
    obtain ⟨t, cs', he, ht⟩ := ih
    rw [mergeLoop, if_pos hlen, he]
    refine ⟨'/' :: (cn ++ t), cs', ?_, Or.inr rfl⟩
    simp
  | case2 n cn gc hlen =>
    rw [mergeLoop, if_neg hlen]
    exact ⟨[], [TreeNode.dir cn gc], by simp, Or.inl rfl⟩
  | case3 n cs hne =>
    rw [mergeLoop_eq_of_not n cs (fun cn gc h => absurd h (fun hh => hne cn gc hh))]
    exact ⟨[], cs, by simp, Or.inl rfl⟩

/-- `dirNamesOKB` distributes over append. -/
theorem dirNamesOKB_append (as bs : List TreeNode) :
    dirNamesOKB (as ++ bs) = (dirNamesOKB as && dirNamesOKB bs) := by
  induction as with
  | nil => simp [dirNamesOKB]
  | cons a as ih =>
    cases a with
    | file f => rw [List.cons_append, dirNamesOKB, dirNamesOKB, ih]
    | dir n cs =>
      rw [List.cons_append, dirNamesOKB, dirNamesOKB, ih]
      simp [Bool.and_assoc]

/-- Membership characterization of `dirNamesOKB`. -/
theorem dirNamesOKB_iff (l : List TreeNode) :
    dirNamesOKB l = true ↔
      ∀ x ∈ l, ∀ nm cs, x = TreeNode.dir nm cs →
        noSlash nm = true ∧ dirNamesOKB cs = true := by
  induction l with
  | nil => simp [dirNamesOKB]
  | cons x xs ih =>
    cases x with
    | file f =>
      rw [dirNamesOKB, ih]
      constructor
      · intro h y hy nm cs heq
        rcases List.mem_cons.mp hy with rfl | hy2
        · cases heq
        · exact h y hy2 nm cs heq
      · intro h y hy nm cs heq
        exact h y (List.mem_cons_of_mem _ hy) nm cs heq
    | dir n cs =>
      rw [dirNamesOKB, Bool.and_eq_true, Bool.and_eq_true, ih]
      constructor
      · rintro ⟨⟨h1, h2⟩, h3⟩ y hy nm cs' heq
        rcases List.mem_cons.mp hy with rfl | hy2
        · cases heq; exact ⟨h1, h2⟩
        · exact h3 y hy2 nm cs' heq
      · intro h
        refine ⟨⟨(h _ (List.mem_cons_self _ _) n cs rfl).1,
          (h _ (List.mem_cons_self _ _) n cs rfl).2⟩,
          fun y hy nm cs' heq => h y (List.mem_cons_of_mem _ hy) nm cs' heq⟩

/-- Insertion only creates directory names taken from the split parts. -/
theorem insert_dirNames (nodes : List TreeNode) (parts : List Str) (f : FileEntry)
    (hn : dirNamesOKB nodes = true) (hp : ∀ p ∈ parts, noSlash p = true) :
    dirNamesOKB (insertIntoTree nodes parts f) = true := by
  refine insertIntoTree.induct
    (fun nodes parts f => dirNamesOKB nodes = true →
      (∀ p ∈ parts, noSlash p = true) →
      dirNamesOKB (insertIntoTree nodes parts f) = true)
    (fun nodes p rest f => dirNamesOKB nodes = true → noSlash p = true →
      (∀ q ∈ rest, noSlash q = true) →
      dirNamesOKB (insertIntoDir nodes p rest f) = true)
    ?_ ?_ ?_ ?_ ?_ ?_ ?_ nodes parts f hn hp
  · intro nodes f h _
    rw [insertIntoTree]
    exact h
  · intro nodes f hd h _
    rw [insertIntoTree, dirNamesOKB_append]
    simp [h, dirNamesOKB]
  · intro nodes f p rest hrest ih h hps
    cases rest with
    | nil => exact absurd rfl (fun hh => hrest hh)
    | cons r rs =>
      rw [insertIntoTree]
      · exact ih h (hps p (List.mem_cons_self _ _))
          (fun q hq => hps q (List.mem_cons_of_mem _ hq))
      · simp
  · intro p rest f ih _ hp hqs
    rw [insertIntoDir, dirNamesOKB, dirNamesOKB]
    simp only [Bool.and_eq_true]
    exact ⟨⟨hp, ih (by simp [dirNamesOKB]) hqs⟩, by simp [dirNamesOKB]⟩
  · intro rest f name children ns ih h hp hqs
    rw [insertIntoDir, if_pos rfl, dirNamesOKB]
    rw [dirNamesOKB, Bool.and_eq_true, Bool.and_eq_true] at h
    simp only [Bool.and_eq_true]
    exact ⟨⟨h.1.1, ih h.1.2 hqs⟩, h.2⟩
  · intro p rest f name children ns hne ih h hp hqs
    rw [insertIntoDir, if_neg hne, dirNamesOKB]
    rw [dirNamesOKB, Bool.and_eq_true, Bool.and_eq_true] at h
    simp only [Bool.and_eq_true]
    exact ⟨⟨h.1.1, h.1.2⟩, ih h.2 hp hqs⟩
  · intro p rest f n ns hnotdir ih h hp hqs
    cases n with
    | dir a b => exact absurd rfl (hnotdir a b)
    | file g =>
      rw [insertIntoDir, dirNamesOKB]
      rw [dirNamesOKB] at h
      · exact ih h hp hqs
      · exact hnotdir

/-- The insertion fold keeps all directory names slash-free. -/
theorem buildRoot_dirNames (fs : List FileEntry) :
    ∀ (acc : List TreeNode), dirNamesOKB acc = true →
    dirNamesOKB (fs.foldl (fun acc f => insertIntoTree acc (splitChar '/' f.path) f) acc) = true := by
  induction fs with
  | nil => intro acc h; exact h
  | cons f fs ih =>
    intro acc h
    rw [List.foldl_cons]
    exact ih _ (insert_dirNames acc _ f h (splitChar_noSlash f.path))

/-- Sorting keeps all directory names slash-free. -/
theorem sortTree_dirNames (nodes : List TreeNode)
    (h : dirNamesOKB nodes = true) : dirNamesOKB (sortTree nodes) = true := by
  refine sortTree.induct
    (fun nodes => dirNamesOKB nodes = true → dirNamesOKB (sortTree nodes) = true)
    (fun ns => dirNamesOKB ns = true → ∀ x ∈ sortEach ns, ∀ nm cs,
      x = TreeNode.dir nm cs → noSlash nm = true ∧ dirNamesOKB cs = true)
    (fun n => (∀ nm cs, n = TreeNode.dir nm cs →
        noSlash nm = true ∧ dirNamesOKB cs = true) →
      ∀ nm cs, sortNode n = TreeNode.dir nm cs →
        noSlash nm = true ∧ dirNamesOKB cs = true)
    ?_ ?_ ?_ ?_ ?_ nodes h
  · intro ns ih hns
    rw [sortTree, dirNamesOKB_iff]
    intro x hx nm cs heq
    exact ih hns x ((List.mergeSort_perm (sortEach ns) nodeLe).subset hx) nm cs heq
  · intro _ x hx
    rw [sortEach] at hx
    simp at hx
  · intro n ns ih1 ih2 hns x hx
    rw [dirNamesOKB_iff] at hns
    rw [sortEach] at hx
    rcases List.mem_cons.mp hx with rfl | hx2
    · exact ih1 (hns n (List.mem_cons_self _ _))
    · have hns2 : dirNamesOKB ns = true := by
        rw [dirNamesOKB_iff]
        intro y hy nm cs heq
        exact hns y (List.mem_cons_of_mem _ hy) nm cs heq
      exact ih2 hns2 x hx2
  · intro f _ nm cs heq
    rw [sortNode] at heq
    cases heq
  · intro n cs ih h nm cs' heq
    rw [sortNode] at heq
    cases heq
    have h2 := h n cs rfl
    exact ⟨h2.1, ih h2.2⟩
/-- `compact_tree` maps each node in place. -/
theorem compactList_eq_map (ns : List TreeNode) :
    compactList ns = ns.map compactNode := by
  induction ns with
  | nil => rfl
  | cons n ns ih => rw [compactList, ih, List.map_cons]

/-- Compacting both sides of a comparator-ordered pair yields an
`amendedLe`-ordered pair (compaction preserves kind, file names, and the
first name-segment of slash-free directory names). -/
theorem amendedLe_compact (a b : TreeNode) (hle : nodeLe a b = true)
    (ha : ∀ nm cs, a = TreeNode.dir nm cs → noSlash nm = true)
    (hb : ∀ nm cs, b = TreeNode.dir nm cs → noSlash nm = true) :
    amendedLe (compactNode a) (compactNode b) = true := by
  cases a with
  | file f =>
    cases b with
    | file g =>
      rw [compactNode, compactNode]
      rw [nodeLe] at hle
      rw [amendedLe]
      simpa [TreeNode.isDir] using hle
    | dir m ds =>
      rw [nodeLe, TreeNode.isDir, TreeNode.isDir] at hle
      simp at hle
  | dir n cs =>
    cases b with
    | file g =>
      obtain ⟨n', cs', he, _⟩ := compactNode_dir n cs
      rw [he, compactNode, amendedLe]
      rfl
    | dir m ds =>
      rw [nodeLe, TreeNode.isDir, TreeNode.isDir] at hle
      simp only [TreeNode.name] at hle
      have hna := ha n cs rfl
      have hnb := hb m ds rfl
      obtain ⟨t1, cs1, he1, ht1⟩ := mergeLoop_name n (compactList cs)
      obtain ⟨t2, cs2, he2, ht2⟩ := mergeLoop_name m (compactList ds)
      rw [compactNode, compactNode, he1, he2, amendedLe]
      simp only [TreeNode.isDir, TreeNode.name]
      rw [firstSeg_append_of n t1 hna ht1, firstSeg_append_of m t2 hnb ht2]
      exact hle

/-- Membership characterization of `childrenAmendedB`. -/
theorem childrenAmendedB_iff (l : List TreeNode) :
    childrenAmendedB l = true ↔
      ∀ x ∈ l, ∀ nm cs, x = TreeNode.dir nm cs → treeAmendedB cs = true := by
  induction l with
  | nil => simp [childrenAmendedB]
  | cons x xs ih =>
    cases x with
    | file f =>
      rw [childrenAmendedB, ih]
      constructor
      · intro h y hy nm cs heq
        rcases List.mem_cons.mp hy with rfl | hy2
        · cases heq
        · exact h y hy2 nm cs heq
      · intro h y hy nm cs heq
        exact h y (List.mem_cons_of_mem _ hy) nm cs heq
    | dir n cs =>
      rw [childrenAmendedB, Bool.and_eq_true, ih]
      constructor
      · rintro ⟨h1, h2⟩ y hy nm cs' heq
        rcases List.mem_cons.mp hy with rfl | hy2
        · cases heq; exact h1
        · exact h2 y hy2 nm cs' heq
      · intro h
        exact ⟨h _ (List.mem_cons_self _ _) n cs rfl,
          fun y hy nm cs' heq => h y (List.mem_cons_of_mem _ hy) nm cs' heq⟩

/-- The merge loop yields a directory whose children still satisfy the
amended ordering. -/
theorem mergeLoop_amended (n : Str) (cs : List TreeNode)
    (h : treeAmendedB cs = true) :
    ∃ n' cs', mergeLoop n cs = TreeNode.dir n' cs' ∧ treeAmendedB cs' = true := by
  induction n, cs using mergeLoop.induct with
  | case1 n cn gc hlen ih =>
    rw [mergeLoop, if_pos hlen]
    apply ih
    rw [treeAmendedB, Bool.and_eq_true] at h
    have h2 := (childrenAmendedB_iff _).mp h.2
    exact h2 _ (List.mem_cons_self _ _) cn gc rfl
  | case2 n cn gc hlen =>
    rw [mergeLoop, if_neg hlen]
    exact ⟨n, [TreeNode.dir cn gc], rfl, h⟩
  | case3 n cs hne =>
    rw [mergeLoop_eq_of_not n cs (fun cn gc hh => absurd hh (fun h2 => hne cn gc h2))]
    exact ⟨n, cs, rfl, h⟩

/-- Cons characterization of `treeSortedB`. -/
theorem treeSortedB_cons (x : TreeNode) (xs : List TreeNode) :
    treeSortedB (x :: xs) = true ↔
      (∀ y ∈ xs, nodeLe x y = true) ∧ treeSortedB xs = true ∧
        (∀ nm cs, x = TreeNode.dir nm cs → treeSortedB cs = true) := by
  rw [treeSortedB, treeSortedB, Bool.and_eq_true, Bool.and_eq_true]
  rw [pairwiseB, Bool.and_eq_true, List.all_eq_true]
  rw [childrenSortedB_iff, childrenSortedB_iff]
  constructor
  · rintro ⟨⟨h1, h2⟩, h3⟩
    refine ⟨h1, ⟨h2, fun y hy => h3 y (List.mem_cons_of_mem _ hy)⟩,
      fun nm cs heq => h3 x (List.mem_cons_self _ _) nm cs heq⟩
  · rintro ⟨h1, ⟨h2, h3⟩, h4⟩
    refine ⟨⟨h1, h2⟩, fun y hy nm cs heq => ?_⟩
    rcases List.mem_cons.mp hy with rfl | hy2
    · exact h4 nm cs heq
    · exact h3 y hy2 nm cs heq

/-- Cons characterization of `treeAmendedB`. -/
theorem treeAmendedB_cons (x : TreeNode) (xs : List TreeNode) :
    treeAmendedB (x :: xs) = true ↔
      (∀ y ∈ xs, amendedLe x y = true) ∧ treeAmendedB xs = true ∧
        (∀ nm cs, x = TreeNode.dir nm cs → treeAmendedB cs = true) := by
  rw [treeAmendedB, treeAmendedB, Bool.and_eq_true, Bool.and_eq_true]
  rw [pairwiseB, Bool.and_eq_true, List.all_eq_true]
  rw [childrenAmendedB_iff, childrenAmendedB_iff]
  constructor
  · rintro ⟨⟨h1, h2⟩, h3⟩
    refine ⟨h1, ⟨h2, fun y hy => h3 y (List.mem_cons_of_mem _ hy)⟩,
      fun nm cs heq => h3 x (List.mem_cons_self _ _) nm cs heq⟩
  · rintro ⟨h1, ⟨h2, h3⟩, h4⟩
    refine ⟨⟨h1, h2⟩, fun y hy nm cs heq => ?_⟩
    rcases List.mem_cons.mp hy with rfl | hy2
    · exact h4 nm cs heq
    · exact h3 y hy2 nm cs heq

/-- Compacting a comparator-sorted forest with slash-free directory names
yields an `amendedLe`-sorted forest. -/
theorem compact_amended (ns : List TreeNode) (hs : treeSortedB ns = true)
    (hn : dirNamesOKB ns = true) : treeAmendedB (compactList ns) = true := by
  refine compactList.induct
    (fun n => (∀ nm cs, n = TreeNode.dir nm cs →
        treeSortedB cs = true ∧ dirNamesOKB cs = true) →
      ∀ nm cs, compactNode n = TreeNode.dir nm cs → treeAmendedB cs = true)
    (fun ns => treeSortedB ns = true → dirNamesOKB ns = true →
      treeAmendedB (compactList ns) = true)
    ?_ ?_ ?_ ?_ ns hs hn
  · intro f _ nm cs heq
    rw [compactNode] at heq
    cases heq
  · intro n cs ih h nm cs' heq
    have hcs := h n cs rfl
    have hca : treeAmendedB (compactList cs) = true := ih hcs.1 hcs.2
    obtain ⟨n2, cs2, he2, ha2⟩ := mergeLoop_amended n (compactList cs) hca
    rw [compactNode, he2] at heq
    cases heq
    exact ha2
  · intro _ _
    simp [compactList, treeAmendedB, pairwiseB, childrenAmendedB]
  · intro n ns ih1 ih2 hs hn
    rw [treeSortedB_cons] at hs
    rw [dirNamesOKB_iff] at hn
    have hnTail : dirNamesOKB ns = true := by
      rw [dirNamesOKB_iff]
      intro y hy nm cs heq
      exact hn y (List.mem_cons_of_mem _ hy) nm cs heq
    rw [compactList, treeAmendedB_cons]
    refine ⟨?_, ih2 hs.2.1 hnTail, ?_⟩
    · intro y hy
      rw [compactList_eq_map] at hy
      obtain ⟨z, hz, rfl⟩ := List.mem_map.mp hy
      refine amendedLe_compact n z (hs.1 z hz) ?_ ?_
      · intro nm cs heq
        exact (hn n (List.mem_cons_self _ _) nm cs heq).1
      · intro nm cs heq
        exact (hn z (List.mem_cons_of_mem _ hz) nm cs heq).1
    · intro nm cs heq
      refine ih1 ?_ nm cs heq
      intro nm2 cs2 heq2
      exact ⟨hs.2.2 nm2 cs2 heq2, (hn n (List.mem_cons_self _ _) nm2 cs2 heq2).2⟩

/-- C3 (counterexample): the tree built from `[a/x/f.txt, a!b/g.txt]` is NOT
alphabetically ordered by name at every level: compaction renames the first
root directory to `a/x`, which sorts after its sibling `a!b` (the code of `/` exceeds that of `!`),
so the claimed ordering fails for this ChangeSet. -/
theorem c3_claimed_order_refuted :
    treeSortedB (buildTree [⟨"a/x/f.txt".toList, .modified, 1, 0⟩,
      ⟨"a!b/g.txt".toList, .modified, 1, 0⟩]) = false := by
  simp [buildTree, insertIntoTree, insertIntoDir, splitChar, sortTree, sortEach,
    sortNode, List.mergeSort, nodeLe, TreeNode.name, TreeNode.isDir, strLe, lastSeg,
    compactList, compactNode, mergeLoop, treeSortedB, childrenSortedB, pairwiseB]

/-- C3 (amended): at every level of `build_tree` output, all directories
come before all files, files are alphabetical by name, and directories are
alphabetical by the first `/`-segment of their (possibly compacted) name;
alphabetical order by the full compacted name can fail. -/
theorem c3_build_tree_order_amended (fs : List FileEntry) :
    treeAmendedB (buildTree fs) = true := by
  rw [buildTree]
  refine compact_amended _ (sortTree_sorted _) ?_
  refine sortTree_dirNames _ ?_
  exact buildRoot_dirNames fs [] (by simp [dirNamesOKB])

end Prdiff




